import Mathlib

/-!
Shallow embedding of the hierarchical finite state machine engine implemented
in `src/hfsm.c` (functions `get_state_variable`, `entry_if_can_be`,
`exec_if_can_be`, `exit_if_can_be`, `fsm_change_state`, `fsm_state_transit`,
`fsm_init`, `fsm_transition`, `fsm_update`, `fsm_get_state_data`).

Modelling conventions:
* States and events are identified by natural numbers; the C code compares
  them by pointer identity, which becomes equality of identifiers.
* `NULL` pointers become `none`.
* The mutable per-state variables (`struct fsm_state_variable`) live in a
  store `Nat → Variable` indexed by variable identifier.  A state declared
  without a variable resolves to the single shared static variable
  `null_obj`, which we give the reserved identifier `nullVar = 0`, exactly
  as `get_state_variable` falls back to one static object.
* Callbacks (entry/exit/do-activity), guards and actions are modelled
  observationally: each invocation appends an event to a trace (`log`).
  Guards are boolean functions of the machine configuration, as in C where
  the guard receives the machine pointer.  Each call of `fsm_state_transit`
  additionally records an `attempt` event, making dispatch attempts
  observable.
* The C loops that walk raw parent pointers can fail to terminate on a
  cyclic parent configuration; each such loop takes a fuel argument and
  exhausting the fuel yields the distinguished result `hang`, while a failed
  `assert` (or the NULL dereference that follows it with `NDEBUG`) yields
  `crash`.
* The scratch stacks have capacity `NEST_MAX = 5`; a push onto a full stack
  fails and the C code ignores the failure, so only the first five pushed
  elements are kept.  `stack_pop` on an empty stack returns the sentinel
  `-1` and leaves the output parameter unchanged; popping otherwise returns
  the remaining depth.
-/

namespace HFSM

/-- Mutable per-state variable (`struct fsm_state_variable`): parent link,
recorded history substate and opaque data slot, each possibly NULL. -/
structure Variable where
  parent : Option Nat
  history : Option Nat
  data : Option Nat
deriving DecidableEq

/-- Immutable part of a state declaration (`struct fsm_state`): the
identifier of its associated variable if any (the `variable` field, NULL
when absent) and which of the entry / exit / do-activity callbacks are
declared (non-NULL function pointers). -/
structure StateDef where
  var : Option Nat
  hasEntry : Bool
  hasExit : Bool
  hasExec : Bool
deriving DecidableEq

/-- One row of the transition table (`struct fsm_trans`): source state
(`from`), event, optional guard identifier (`cond`), optional action
identifier, optional destination (`dst` models the `to` field, a Lean
keyword; `to == NULL` denotes an internal transition). -/
structure Row where
  src : Nat
  event : Nat
  cond : Option Nat
  action : Option Nat
  dst : Option Nat
deriving DecidableEq

/-- One row of the relation table (`struct fsm_rels`): a state, its parent
and whether the state is its parent's default history target. -/
structure Rel where
  oneself : Nat
  parent : Option Nat
  is_default : Bool
deriving DecidableEq

/-- Observable trace events: entry / exit / do-activity callback
invocations (with the `cmpl` flag passed to them), guard evaluations with
their outcome, action invocations, and dispatch attempts (one per call of
`fsm_state_transit`). -/
inductive Ev where
  | enter (s : Nat) (cmpl : Bool)
  | leave (s : Nat) (cmpl : Bool)
  | run (s : Nat)
  | guard (g : Nat) (r : Bool)
  | act (a : Nat)
  | attempt (s e : Nat)
deriving DecidableEq

/-- Mutable machine configuration: the current state (`machine->current`),
the store of per-state variables, and the observation trace. -/
structure Config where
  current : Nat
  vars : Nat → Variable
  log : List Ev

/-- Immutable machine environment: the state declarations, the transition
table (`machine->corresps`) and the semantics of guards. -/
structure Env where
  states : Nat → StateDef
  corresps : List Row
  guards : Nat → Config → Bool

/-- Maximum composite-state nesting (`NEST_MAX`), the capacity of the two
scratch stacks. -/
def NEST_MAX : Nat := 5

/-- Identifier of the engine-owned start state (`state_start`). -/
def state_start : Nat := 0

/-- Identifier of the engine-owned end state (`state_end`). -/
def state_end : Nat := 1

/-- Identifier of the reserved null transition event (`event_null`). -/
def event_null : Nat := 0

/-- Identifier of the shared static empty variable (`null_obj` inside
`get_state_variable`). -/
def nullVar : Nat := 0

/-- Variable identifier a state resolves to: its own variable if set,
otherwise the shared `null_obj`. -/
def resolveVar (env : Env) (s : Nat) : Nat :=
  ((env.states s).var).getD nullVar

/-- `get_state_variable`: the variable of `state`, or the fixed empty
variable when none is set.  Never absent. -/
def get_state_variable (env : Env) (cfg : Config) (s : Nat) : Variable :=
  cfg.vars (resolveVar env s)

/-- Append one observation to the trace. -/
def addLog (cfg : Config) (e : Ev) : Config :=
  { cfg with log := cfg.log ++ [e] }

/-- Write `get_state_variable(owner)->history = child`. -/
def setHistory (env : Env) (cfg : Config) (owner child : Nat) : Config :=
  { cfg with vars := fun v =>
      if v = resolveVar env owner then { cfg.vars v with history := some child }
      else cfg.vars v }

/-- Write `get_state_variable(s)->parent = p`. -/
def setParent (env : Env) (cfg : Config) (s : Nat) (p : Option Nat) : Config :=
  { cfg with vars := fun v =>
      if v = resolveVar env s then { cfg.vars v with parent := p }
      else cfg.vars v }

/-- `entry_if_can_be`: invoke the entry callback if declared. -/
def entry_if_can_be (env : Env) (cfg : Config) (s : Nat) (cmpl : Bool) : Config :=
  if (env.states s).hasEntry then addLog cfg (.enter s cmpl) else cfg

/-- `exec_if_can_be`: invoke the do-activity of the current state if
declared. -/
def exec_if_can_be (env : Env) (cfg : Config) : Config :=
  if (env.states cfg.current).hasExec then addLog cfg (.run cfg.current) else cfg

/-- `exit_if_can_be`: invoke the exit callback if declared, then — on every
exit, unconditionally — record `s` as its parent's history when `s` has a
parent. -/
def exit_if_can_be (env : Env) (cfg : Config) (s : Nat) (cmpl : Bool) : Config :=
  let par := (get_state_variable env cfg s).parent
  let cfg1 := if (env.states s).hasExit then addLog cfg (.leave s cmpl) else cfg
  match par with
  | none => cfg1
  | some p => setHistory env cfg1 p s

/-- The parent-pointer walk of `fsm_change_state` that pushes a state and
all its ancestors (leaf first).  Returns the full sequence of pushes; a
cyclic parent chain exhausts the fuel (`none`, the C loop would not
terminate). -/
def ancestors (env : Env) (cfg : Config) : Nat → Nat → Option (List Nat)
  | _, 0 => none
  | s, n + 1 =>
    match (get_state_variable env cfg s).parent with
    | none => some [s]
    | some p => (ancestors env cfg p n).map (fun l => s :: l)

/-- Contents of a scratch stack after the pushes in `l` (first element
pushed first), in pop order.  Pushes beyond the capacity `NEST_MAX` fail
and are silently ignored by the C code, so only the first five survive;
the last surviving push is popped first. -/
def stackOf (l : List Nat) : List Nat :=
  (l.take NEST_MAX).reverse

/-- The lock-step pop loop of `fsm_change_state` that drops the common
ancestors: pop both stacks while the popped elements are equal.  The result
is the first differing pair (`none` when that side's stack was exhausted:
`stack_pop` failed and left the NULLed output unchanged) together with the
remainder of the destination stack.  When both stacks run out
simultaneously the C loop never terminates, which is the `none` result. -/
def lockstep : List Nat → List Nat → Option (Option Nat × Option Nat × List Nat)
  | [], [] => none
  | [], d :: ds => some (none, some d, ds)
  | s :: _, [] => some (some s, none, [])
  | s :: ss, d :: ds =>
    if s = d then lockstep ss ds else some (some s, some d, ds)

/-- Result of a state change: normal completion, a failed assertion /
NULL dereference, or a non-terminating walk (fuel exhausted). -/
inductive CRes where
  | ok (c : Config)
  | crash
  | hang

/-- The exit cascade of `fsm_change_state`: starting at the current leaf,
walk up the parent links invoking `exit_if_can_be` until the common
ancestor is reached; `cmpl` is true exactly when the exited state's parent
is the ancestor.  Reaching NULL before the ancestor fails the
`assert(src_state != NULL)`. -/
def exitWalk (env : Env) : Nat → Config → Option Nat → Option Nat → CRes
  | 0, _, _, _ => .hang
  | n + 1, cfg, srcOpt, anc =>
    if srcOpt = anc then .ok cfg
    else
      match srcOpt with
      | none => .crash
      | some s =>
        exitWalk env n
          (exit_if_can_be env cfg s (decide ((get_state_variable env cfg s).parent = anc)))
          ((get_state_variable env cfg s).parent) anc

/-- The entry cascade of `fsm_change_state` (the `do`/`while (count >= 0)`
loop): enter the first diverging destination ancestor and then each state
popped from the destination stack, `cmpl` being true exactly for the last
one (`count == 0`). -/
def entrySeq (env : Env) : Config → Nat → List Nat → Config
  | cfg, d, [] => entry_if_can_be env cfg d true
  | cfg, d, d' :: rest => entrySeq env (entry_if_can_be env cfg d false) d' rest

/-- `fsm_change_state`: self-transition short-circuit, ancestor chains,
lock-step search for the divergence point, exit cascade, entry cascade, and
recursion into the reached leaf's recorded history.  `wf` is the fuel of
each raw-pointer walk (constant across the recursion); the last argument
of the outer recursion is the history-recursion fuel. -/
def fsm_change_state (env : Env) (wf : Nat) : Nat → Config → Nat → CRes
  | 0, _, _ => .hang
  | fuel + 1, cfg, newState =>
    if cfg.current = newState then
      .ok (entry_if_can_be env (exit_if_can_be env cfg cfg.current true) newState true)
    else
      match ancestors env cfg cfg.current wf, ancestors env cfg newState wf with
      | some srcChain, some destChain =>
        match lockstep (stackOf srcChain) (stackOf destChain) with
        | none => .hang
        | some (srcTop, destTop, destRest) =>
          match destTop with
          | none => .crash
          | some d0 =>
            let ancestor : Option Nat :=
              match srcTop with
              | some s => (get_state_variable env cfg s).parent
              | none => some cfg.current
            match exitWalk env wf cfg (some cfg.current) ancestor with
            | .crash => .crash
            | .hang => .hang
            | .ok cfg1 =>
              let cfg2 := entrySeq env { cfg1 with current := newState } d0 destRest
              let leaf := destRest.getLastD d0
              match (get_state_variable env cfg2 leaf).history with
              | none => .ok cfg2
              | some h => fsm_change_state env wf fuel cfg2 h
      | _, _ => .hang

/-- Result of `fsm_state_transit`: the boolean the C function returns
together with the updated configuration, or an abnormal outcome propagated
from `fsm_change_state`. -/
inductive TRes where
  | res (matched : Bool) (c : Config)
  | crash
  | hang

/-- Taking a matched row whose guard accepted: run the action if present,
then change state if the row has a destination (an absent destination is an
internal transition), and report success. -/
def takeRow (env : Env) (wf cf : Nat) (r : Row) (cfg : Config) : TRes :=
  let cfg1 := match r.action with
    | none => cfg
    | some a => addLog cfg (.act a)
  match r.dst with
  | none => .res true cfg1
  | some t =>
    match fsm_change_state env wf cf cfg1 t with
    | .ok c => .res true c
    | .crash => .crash
    | .hang => .hang

/-- The row scan of `fsm_state_transit`: walk the sentinel-terminated table
in declaration order; on a `from`/`event` match evaluate the guard (if
any); a rejecting guard lets the `for` loop continue with the next row. -/
def transitRows (env : Env) (wf cf : Nat) (st ev : Nat) : List Row → Config → TRes
  | [], cfg => .res false cfg
  | r :: rest, cfg =>
    if r.src = st ∧ r.event = ev then
      match r.cond with
      | none => takeRow env wf cf r cfg
      | some g =>
        let b := env.guards g cfg
        let cfg1 := addLog cfg (.guard g b)
        if b then takeRow env wf cf r cfg1
        else transitRows env wf cf st ev rest cfg1
    else transitRows env wf cf st ev rest cfg

/-- `fsm_state_transit`: one dispatch attempt of `ev` at `st`. -/
def fsm_state_transit (env : Env) (wf cf : Nat) (cfg : Config) (st ev : Nat) : TRes :=
  transitRows env wf cf st ev env.corresps (addLog cfg (.attempt st ev))

/-- The bubbling loop of `fsm_transition`: try the event at the current
leaf and then at progressively higher ancestors until one dispatch succeeds
or the chain is exhausted. -/
def bubbleLoop (env : Env) (wf cf : Nat) : Nat → Config → Option Nat → Nat → CRes
  | 0, _, _, _ => .hang
  | _ + 1, cfg, none, _ => .ok cfg
  | bf + 1, cfg, some st, ev =>
    match fsm_state_transit env wf cf cfg st ev with
    | .res true c => .ok c
    | .res false c => bubbleLoop env wf cf bf c ((get_state_variable env c st).parent) ev
    | .crash => .crash
    | .hang => .hang

/-- `fsm_transition`: bubble the event from the current leaf up the
ancestor chain, then unconditionally perform one null-event dispatch at the
then-current state.  (The C function first returns silently when `machine`
or `event` is NULL; both are present by construction here.) -/
def fsm_transition (env : Env) (wf cf bf : Nat) (cfg : Config) (ev : Nat) : CRes :=
  match bubbleLoop env wf cf bf cfg (some cfg.current) ev with
  | .ok c =>
    match fsm_state_transit env wf cf c c.current event_null with
    | .res _ c' => .ok c'
    | .crash => .crash
    | .hang => .hang
  | x => x

/-- `fsm_update`: run the current state's do-activity, if declared. -/
def fsm_update (env : Env) (cfg : Config) : Config :=
  exec_if_can_be env cfg

/-- `fsm_get_state_data`: for a NULL state set `errno = EINVAL` and return
NULL; otherwise return the state's variable's data slot without touching
`errno`.  The boolean records whether `errno` was set. -/
def fsm_get_state_data (env : Env) (cfg : Config) : Option Nat → Option Nat × Bool
  | none => (none, true)
  | some s => ((get_state_variable env cfg s).data, false)

/-- The relation-application loop of `fsm_init`: set each row's parent
link, and seed the parent's history with the row's state when
`is_default` is set.  A default row with a NULL parent dereferences
`get_state_variable(NULL)`, which is a crash (`none`). -/
def applyRels (env : Env) : List Rel → Config → Option Config
  | [], cfg => some cfg
  | r :: rest, cfg =>
    let cfg1 := setParent env cfg r.oneself r.parent
    match r.is_default, r.parent with
    | true, none => none
    | true, some p => applyRels env rest (setHistory env cfg1 p r.oneself)
    | false, _ => applyRels env rest cfg1

/-- Resource tags of the three allocations `fsm_init` performs, in
allocation order: the machine storage, the source scratch stack and the
destination scratch stack. -/
def resMachine : Nat := 0

/-- Resource tag of the source-ancestor scratch stack. -/
def resSrc : Nat := 1

/-- Resource tag of the destination-ancestor scratch stack. -/
def resDest : Nat := 2

/-- Result of `fsm_init`: invalid argument (`errno = EINVAL`, transition
table absent), allocation failure (NULL return after releasing; the lists
record which resources were allocated and which were released, in order),
a crash or hang propagated from the initial work, or the machine. -/
inductive InitRes where
  | einval
  | nomem (allocated released : List Nat)
  | crash
  | hang
  | ok (c : Config)

/-- `fsm_init`: reject a NULL transition table with `EINVAL`; attempt all
three allocations and, if any failed, release whatever succeeded (release
of NULL is a no-op) and return NULL; otherwise start in `state_start`,
apply the relation rows, perform one null-event dispatch and return the
machine.  `mOk`, `sOk`, `dOk` are the outcomes of `malloc` and the two
`stack_init` calls. -/
def fsm_init (states : Nat → StateDef) (guards : Nat → Config → Bool)
    (rels : Option (List Rel)) (rows : Option (List Row))
    (vars0 : Nat → Variable) (mOk sOk dOk : Bool) (wf cf : Nat) : InitRes :=
  match rows with
  | none => .einval
  | some rs =>
    if mOk ∧ sOk ∧ dOk then
      let env : Env := ⟨states, rs, guards⟩
      let cfg0 : Config := ⟨state_start, vars0, []⟩
      let afterRels : Option Config :=
        match rels with
        | none => some cfg0
        | some rl => applyRels env rl cfg0
      match afterRels with
      | none => .crash
      | some cfg1 =>
        match fsm_state_transit env wf cf cfg1 cfg1.current event_null with
        | .res _ c => .ok c
        | .crash => .crash
        | .hang => .hang
    else
      .nomem
        ((if mOk then [resMachine] else []) ++ (if sOk then [resSrc] else []) ++
          (if dOk then [resDest] else []))
        ((if dOk then [resDest] else []) ++ (if sOk then [resSrc] else []) ++
          (if mOk then [resMachine] else []))

/-- Current state of a normally completed state change, if any. -/
def CRes.currentOf : CRes → Option Nat
  | .ok c => some c.current
  | _ => none

/-- Number of null-event dispatch attempts recorded in a trace. -/
def nullAttempts (l : List Ev) : Nat :=
  l.countP (fun e => match e with
    | .attempt _ ev => ev == event_null
    | _ => false)

/-- The dispatch-attempt events a failing bubbling pass leaves behind, one
per visited state. -/
def attemptsFor (S : List Nat) (ev : Nat) : List Ev :=
  S.map (fun s => Ev.attempt s ev)

/-- The trace of `c` extends the trace of `cfg` without recording any
null-event dispatch attempt. -/
def logExt (cfg c : Config) : Prop :=
  ∃ Δ, c.log = cfg.log ++ Δ ∧ nullAttempts Δ = 0

/-- No row of the table matches `(st, ev)` (identity on both). -/
def noMatch (rows : List Row) (st ev : Nat) : Bool :=
  rows.all (fun r => !(r.src == st && r.event == ev))

/-- First row of the table whose `from`/`event` match `(st, ev)`. -/
def firstMatch (rows : List Row) (st ev : Nat) : Option Row :=
  rows.find? (fun r => r.src == st && r.event == ev)

/-- The guard-evaluation step the row scan performs on a matched row
before taking it: evaluate the guard, if any, and record the verdict. -/
def guardStep (env : Env) (r : Row) (cfg : Config) : Config :=
  match r.cond with
  | none => cfg
  | some g => addLog cfg (.guard g (env.guards g cfg))

/-- The row's guard, if it has one, accepts in every configuration with
this current state and variable store (the trace is observational only, so
this is acceptance in the machine state reached by the bubbling pass). -/
def guardsAccept (env : Env) (r : Row) (cfg : Config) : Prop :=
  ∀ g, r.cond = some g → ∀ L, env.guards g ⟨cfg.current, cfg.vars, L⟩ = true

/-- `l` is a complete ancestor chain in `cfg`: each element's parent is the
next element, and the last element has no parent. -/
def chainProp (env : Env) (cfg : Config) : List Nat → Prop
  | [] => True
  | [s] => (get_state_variable env cfg s).parent = none
  | s :: p :: rest =>
    (get_state_variable env cfg s).parent = some p ∧ chainProp env cfg (p :: rest)

/-- `D` is the chain of recorded histories descending from `t`: each listed
state is the recorded history of the previous one and a child of it, and
the last one records no history. -/
def histChain (env : Env) (cfg : Config) : Nat → List Nat → Prop
  | t, [] => (get_state_variable env cfg t).history = none
  | t, h :: rest =>
    (get_state_variable env cfg t).history = some h ∧
    (get_state_variable env cfg h).parent = some t ∧
    histChain env cfg h rest

/-- `d` is a depth function compatible with the parent links of `cfg`:
roots have depth 1 and a child is one deeper than its parent.  Such a `d`
exists exactly when the parent relation is acyclic with finite chains. -/
def DC (env : Env) (d : Nat → Nat) (cfg : Config) : Prop :=
  ∀ s, ((get_state_variable env cfg s).parent = none → d s = 1) ∧
    ∀ p, (get_state_variable env cfg s).parent = some p → d s = d p + 1

/-- Every recorded history is exactly one level deeper than the state whose
variable records it.  This is the run-time invariant behind the bounded
history recursion. -/
def HI (env : Env) (d : Nat → Nat) (cfg : Config) : Prop :=
  ∀ s h, (get_state_variable env cfg s).history = some h → d h = d s + 1

/-- The two stores agree on every parent link (the engine never rewrites a
parent after `fsm_init`). -/
def sameParents (a b : Config) : Prop :=
  ∀ v, (b.vars v).parent = (a.vars v).parent

/-- The empty variable (`FSM_STATE_VARIABLE_INITIALIZER`). -/
def vNone : Variable := ⟨none, none, none⟩

/-- Concrete fixture: state 1 is a root owning variable 10, state 2 is its
child owning variable 20, every other state has no variable. -/
def statesA : Nat → StateDef := fun s =>
  if s = 1 then ⟨some 10, true, true, false⟩
  else if s = 2 then ⟨some 20, true, true, false⟩
  else ⟨none, true, true, false⟩

/-- Variable store for `statesA`: variable 20 records parent 1. -/
def varsA : Nat → Variable := fun v =>
  if v = 20 then ⟨some 1, none, none⟩ else vNone

/-- Environment with the `statesA` hierarchy and an empty transition
table. -/
def envA : Env := ⟨statesA, [], fun _ _ => false⟩

/-- Machine currently in leaf state 2 (child of 1). -/
def cfgA : Config := ⟨2, varsA, []⟩

/-- Depth function for the `statesA` hierarchy. -/
def depthA : Nat → Nat := fun s => if s = 2 then 2 else 1

/-- Two rows with identical `from`/`event`: the first one guarded (guard 0,
which always rejects below), the second unguarded with destination 3. -/
def rowsB : List Row := [⟨1, 7, some 0, none, some 2⟩, ⟨1, 7, none, none, some 3⟩]

/-- Environment for the guard-rejection scan: flat states, `rowsB`, and
guards that always reject. -/
def envB : Env := ⟨fun _ => ⟨none, true, true, false⟩, rowsB, fun _ _ => false⟩

/-- Machine currently in state 1, empty store. -/
def cfgB : Config := ⟨1, fun _ => vNone, []⟩

/-- A single completion row: the null event taken from state 1 leads to
state 2. -/
def rowsD : List Row := [⟨1, event_null, none, none, some 2⟩]

/-- Environment with only the completion row `rowsD`. -/
def envD : Env := ⟨fun _ => ⟨none, true, true, false⟩, rowsD, fun _ _ => false⟩

/-- Machine currently in state 1, empty store. -/
def cfgD : Config := ⟨1, fun _ => vNone, []⟩

/-- The configuration reached by firing event 7 on `cfgD`. -/
def cfgD' : Config :=
  match fsm_transition envD 7 5 6 cfgD 7 with
  | .ok c => c
  | _ => ⟨0, fun _ => vNone, []⟩

/-- Concrete fixture for history descent: composite 1 (variable 10) with
recorded history child 2 (variable 20), and unrelated root 3
(variable 30). -/
def statesE : Nat → StateDef := fun s =>
  if s = 1 then ⟨some 10, true, true, false⟩
  else if s = 2 then ⟨some 20, true, true, false⟩
  else if s = 3 then ⟨some 30, true, true, false⟩
  else ⟨none, true, true, false⟩

/-- Variable store for `statesE`: variable 10 records history 2, variable
20 records parent 1. -/
def varsE : Nat → Variable := fun v =>
  if v = 10 then ⟨none, some 2, none⟩
  else if v = 20 then ⟨some 1, none, none⟩
  else vNone

/-- Environment with the `statesE` hierarchy and an empty transition
table. -/
def envE : Env := ⟨statesE, [], fun _ _ => false⟩

/-- Machine currently in the unrelated root 3. -/
def cfgE : Config := ⟨3, varsE, []⟩

/-- Depth function for the `statesE` hierarchy. -/
def depthE : Nat → Nat := fun s => if s = 2 then 2 else 1

/-- A single row declared on the composite state 1 for event 7, guarded by
condition 5, leading to state 3. -/
def rowsG : List Row := [⟨1, 7, some 5, none, some 3⟩]

/-- Environment with the `statesA` hierarchy (2 a child of 1) and the row
table `rowsG`: event 7 is unmatched at leaf 2 but matched at its parent
1, and guard 5 accepts in every configuration. -/
def envG : Env := ⟨statesA, rowsG, fun g _ => g == 5⟩

/-- Machine currently in leaf state 2 (child of 1). -/
def cfgG : Config := ⟨2, varsA, []⟩

theorem addLog_vars (cfg : Config) (e : Ev) : (addLog cfg e).vars = cfg.vars := rfl

theorem addLog_current (cfg : Config) (e : Ev) : (addLog cfg e).current = cfg.current := rfl

theorem entry_if_vars (env : Env) (cfg : Config) (s : Nat) (c : Bool) :
    (entry_if_can_be env cfg s c).vars = cfg.vars := by
  unfold entry_if_can_be; split <;> rfl

theorem entry_if_current (env : Env) (cfg : Config) (s : Nat) (c : Bool) :
    (entry_if_can_be env cfg s c).current = cfg.current := by
  unfold entry_if_can_be; split <;> rfl

theorem entrySeq_vars (env : Env) (l : List Nat) :
    ∀ (cfg : Config) (d0 : Nat), (entrySeq env cfg d0 l).vars = cfg.vars := by
  induction l with
  | nil => intro cfg d0; simpa [entrySeq] using entry_if_vars env cfg d0 true
  | cons d' rest ih =>
    intro cfg d0
    simp only [entrySeq]
    rw [ih, entry_if_vars]

theorem entrySeq_current (env : Env) (l : List Nat) :
    ∀ (cfg : Config) (d0 : Nat), (entrySeq env cfg d0 l).current = cfg.current := by
  induction l with
  | nil => intro cfg d0; simpa [entrySeq] using entry_if_current env cfg d0 true
  | cons d' rest ih =>
    intro cfg d0
    simp only [entrySeq]
    rw [ih, entry_if_current]

theorem setHistory_parent (env : Env) (cfg : Config) (o c : Nat) (v : Nat) :
    ((setHistory env cfg o c).vars v).parent = (cfg.vars v).parent := by
  unfold setHistory; dsimp only; split <;> rfl

theorem setHistory_data (env : Env) (cfg : Config) (o c : Nat) (v : Nat) :
    ((setHistory env cfg o c).vars v).data = (cfg.vars v).data := by
  unfold setHistory; dsimp only; split <;> rfl

theorem exit_if_current (env : Env) (cfg : Config) (s : Nat) (c : Bool) :
    (exit_if_can_be env cfg s c).current = cfg.current := by
  unfold exit_if_can_be
  cases hp : (get_state_variable env cfg s).parent <;>
    cases hE : (env.states s).hasExit <;>
      simp [hp, hE, setHistory, addLog]

theorem exit_if_sameParents (env : Env) (cfg : Config) (s : Nat) (c : Bool) :
    sameParents cfg (exit_if_can_be env cfg s c) := by
  intro v
  unfold exit_if_can_be
  cases hp : (get_state_variable env cfg s).parent <;>
    cases hE : (env.states s).hasExit <;>
      simp [hp, hE, setHistory, addLog] <;> split <;> rfl

/-- Boolean result of a normally completed dispatch attempt, if any. -/
def TRes.matchedOf : TRes → Option Bool
  | .res b _ => some b
  | _ => none

/-- Current state after a normally completed dispatch attempt, if any. -/
def TRes.currentOf : TRes → Option Nat
  | .res _ c => some c.current
  | _ => none

/-- Current state after a normally completed `fsm_init`, if any. -/
def InitRes.currentOf : InitRes → Option Nat
  | .ok c => some c.current
  | _ => none

end HFSM

namespace HFSM

/-- C1: for a machine whose current state is a strict descendant of the
target `T`, the claim says the state-change exits up to `T`, still enters
`T` itself with `completed = true` and completes normally with the current
state equal to `T`.  The code instead pops the destination scratch stack to
exhaustion inside the lock-step loop (the chains agree on `T` itself), so
`dest_state` is NULL, `assert(dest_state != NULL)` fails, and with `NDEBUG`
the subsequent `entry_if_can_be(machine, NULL, ...)` dereferences NULL.
Concretely: state 2 is a child of state 1, the machine is in 2, and a
state change to the parent 1 crashes. -/
theorem c1_to_ancestor_crashes : fsm_change_state envA 7 5 cfgA 1 = CRes.crash := by
  rfl

/-- C2 counterexample: with two rows declared for the same `from`/`event`
pair — the first guarded by an always-rejecting guard, the second
unguarded with destination 3 — dispatching the event at state 1 does NOT
fail: the scan continues past the rejected first row, takes the second row
and moves the machine to state 3, contradicting the claim that the first
matching row is final regardless of guard outcome. -/
theorem c2_counterexample :
    (fsm_state_transit envB 7 5 cfgB 1 7).matchedOf = some true ∧
    (fsm_state_transit envB 7 5 cfgB 1 7).currentOf = some 3 := by
  exact ⟨rfl, rfl⟩

/-- C2 (amended): when the first transition row whose `from` and `event`
match has a guard and the guard rejects, the row scan continues with the
remaining rows (after recording the guard evaluation); dispatch fails only
if no subsequent matching row accepts. -/
theorem c2_guard_reject_scan_continues :
    ∀ (env : Env) (wf cf st ev : Nat) (r : Row) (rest : List Row) (cfg : Config) (g : Nat),
      r.src = st → r.event = ev → r.cond = some g → env.guards g cfg = false →
      transitRows env wf cf st ev (r :: rest) cfg =
        transitRows env wf cf st ev rest (addLog cfg (Ev.guard g false)) := by
  intro env wf cf st ev r rest cfg g h1 h2 h3 h4
  simp only [transitRows, if_pos (And.intro h1 h2), h3, h4]
  simp

/-- Witness for C2's amended theorem, at the concrete two-row table. -/
theorem c2_guard_reject_scan_continues_witness :
    transitRows envB 7 5 1 7 rowsB cfgB =
      transitRows envB 7 5 1 7 [⟨1, 7, none, none, some 3⟩] (addLog cfgB (Ev.guard 0 false)) :=
  c2_guard_reject_scan_continues envB 7 5 1 7 ⟨1, 7, some 0, none, some 2⟩
    [⟨1, 7, none, none, some 3⟩] cfgB 0 rfl rfl rfl rfl

/-- C5: every state exited through `exit_if_can_be` — including the single
state of a self-transition — has itself recorded as its parent's history
whenever it has a parent; the record happens unconditionally, with or
without a declared exit callback (the trace gains the callback event
exactly when one is declared), and the current state is untouched by the
exit itself. -/
theorem c5_exit_always_records_history :
    ∀ (env : Env) (cfg : Config) (s : Nat) (c : Bool),
      ((∀ q, (get_state_variable env cfg s).parent = some q →
          (get_state_variable env (exit_if_can_be env cfg s c) q).history = some s) ∧
        ((get_state_variable env cfg s).parent = none →
          (exit_if_can_be env cfg s c).vars = cfg.vars) ∧
        (exit_if_can_be env cfg s c).log =
          cfg.log ++ (if (env.states s).hasExit then [Ev.leave s c] else [])) ∧
      ∀ (wf cf : Nat) (q : Nat), cfg.current = s →
        (get_state_variable env cfg s).parent = some q →
        ∃ c', fsm_change_state env wf (cf + 1) cfg s = CRes.ok c' ∧
          (get_state_variable env c' q).history = some s := by
  intro env cfg s c
  refine ⟨⟨?_, ?_, ?_⟩, ?_⟩
  · intro q hq
    unfold exit_if_can_be
    simp only [hq]
    cases hE : (env.states s).hasExit <;>
      simp [hE, setHistory, get_state_variable, addLog]
  · intro hq
    unfold exit_if_can_be
    simp only [hq]
    cases hE : (env.states s).hasExit <;> simp [hE, addLog]
  · unfold exit_if_can_be
    cases hp : (get_state_variable env cfg s).parent <;>
      cases hE : (env.states s).hasExit <;>
        simp [hp, hE, setHistory, addLog]
  · intro wf cf q hcur hq
    refine ⟨entry_if_can_be env (exit_if_can_be env cfg cfg.current true) s true, ?_, ?_⟩
    · simp only [fsm_change_state, if_pos hcur]
    · unfold get_state_variable
      rw [entry_if_vars]
      have h1 := hcur ▸ hq
      unfold exit_if_can_be
      simp only [h1]
      cases hE : (env.states cfg.current).hasExit <;>
        simp [hE, setHistory, get_state_variable, addLog, hcur]

/-- Witness for C5 at the concrete parent/child fixture: the
self-transition of leaf 2 records 2 as the history of its parent 1. -/
theorem c5_exit_always_records_history_witness :
    ∃ c', fsm_change_state envA 7 5 cfgA 2 = CRes.ok c' ∧
      (get_state_variable envA c' 1).history = some 2 :=
  (c5_exit_always_records_history envA cfgA 2 true).2 7 4 1 rfl rfl

/-- C7: `get_state_variable` is total — a state with a variable resolves to
it, and every state without one resolves to the single shared empty
variable, so two variable-less states alias the same mutable variable: a
history or parent write performed through one is observable through the
other. -/
theorem c7_resolve_total_and_shared :
    ∀ (env : Env) (cfg : Config) (s1 s2 v h : Nat) (p : Option Nat),
      ((env.states s1).var = some v → resolveVar env s1 = v) ∧
      ((env.states s1).var = none → resolveVar env s1 = nullVar) ∧
      ((env.states s1).var = none → (env.states s2).var = none →
        resolveVar env s1 = resolveVar env s2 ∧
        (get_state_variable env (setHistory env cfg s1 h) s2).history = some h ∧
        (get_state_variable env (setParent env cfg s1 p) s2).parent = p) := by
  intro env cfg s1 s2 v h p
  refine ⟨?_, ?_, ?_⟩
  · intro hv; simp [resolveVar, hv]
  · intro hv; simp [resolveVar, hv]
  · intro h1 h2
    refine ⟨by simp [resolveVar, h1, h2], ?_, ?_⟩
    · simp [get_state_variable, setHistory, resolveVar, h1, h2]
    · simp [get_state_variable, setParent, resolveVar, h1, h2]

/-- Witness for C7: writing history 3 through variable-less state 5 is
visible when reading through variable-less state 6. -/
theorem c7_resolve_total_and_shared_witness :
    (get_state_variable envA (setHistory envA cfgA 5 3) 6).history = some 3 :=
  ((c7_resolve_total_and_shared envA cfgA 5 6 0 3 none).2.2 rfl rfl).2.1

/-- C10: `fsm_get_state_data` on a present state with no variable, or
whose variable's data slot is unset, returns NULL without setting `errno`;
on an absent state it returns NULL with `errno` set — so a NULL result
alone does not distinguish the two. -/
theorem c10_state_data_null_without_errno :
    ∀ (env : Env) (cfg : Config) (s v : Nat),
      fsm_get_state_data env cfg none = (none, true) ∧
      ((env.states s).var = none → (cfg.vars nullVar).data = none →
        fsm_get_state_data env cfg (some s) = (none, false)) ∧
      ((env.states s).var = some v → (cfg.vars v).data = none →
        fsm_get_state_data env cfg (some s) = (none, false)) := by
  intro env cfg s v
  refine ⟨rfl, ?_, ?_⟩
  · intro h1 h2
    simp [fsm_get_state_data, get_state_variable, resolveVar, h1, h2]
  · intro h1 h2
    simp [fsm_get_state_data, get_state_variable, resolveVar, h1, h2]

/-- Witness for C10: the variable-less state 5 yields NULL data with no
errno. -/
theorem c10_state_data_null_without_errno_witness :
    fsm_get_state_data envA cfgA (some 5) = (none, false) :=
  (c10_state_data_null_without_errno envA cfgA 5 0).2.1 rfl rfl

end HFSM

namespace HFSM

theorem applyRels_keeps (env : Env) (rl : List Rel) :
    ∀ (cfg c' : Config), applyRels env rl cfg = some c' →
      c'.current = cfg.current ∧ c'.log = cfg.log := by
  induction rl with
  | nil =>
    intro cfg c' h
    simp only [applyRels, Option.some.injEq] at h
    subst h; exact ⟨rfl, rfl⟩
  | cons r rest ih =>
    intro cfg c' h
    simp only [applyRels] at h
    cases hb : r.is_default <;> cases hp : r.parent <;> rw [hb, hp] at h
    · exact (ih _ _ h).imp (fun hc => hc.trans rfl) (fun hc => hc.trans rfl)
    · exact (ih _ _ h).imp (fun hc => hc.trans rfl) (fun hc => hc.trans rfl)
    · exact absurd h (by simp)
    · exact (ih _ _ h).imp (fun hc => hc.trans rfl) (fun hc => hc.trans rfl)

/-- C8: `fsm_init` fails with `EINVAL` when the transition table is absent;
when any of the three allocations fails it returns the failure value after
releasing exactly the resources allocated so far (in reverse allocation
order), so no partial machine escapes; and on success the machine was
seeded in `state_start`, the relation rows were applied to the variable
store, and one null-event dispatch was performed from `state_start` to
produce the returned machine. -/
theorem c8_init_transactional :
    ∀ (states : Nat → StateDef) (guards : Nat → Config → Bool)
      (rels : Option (List Rel)) (rows : Option (List Row))
      (vars0 : Nat → Variable) (mOk sOk dOk : Bool) (wf cf : Nat),
      (rows = none →
        fsm_init states guards rels rows vars0 mOk sOk dOk wf cf = InitRes.einval) ∧
      (∀ rs, rows = some rs → ¬(mOk ∧ sOk ∧ dOk) →
        ∃ a, fsm_init states guards rels rows vars0 mOk sOk dOk wf cf =
          InitRes.nomem a a.reverse) ∧
      (∀ rs c', rows = some rs → rels = none →
        fsm_init states guards rels rows vars0 mOk sOk dOk wf cf = InitRes.ok c' →
        ∃ b, fsm_state_transit ⟨states, rs, guards⟩ wf cf ⟨state_start, vars0, []⟩
          state_start event_null = TRes.res b c') ∧
      (∀ rs rl c', rows = some rs → rels = some rl →
        fsm_init states guards rels rows vars0 mOk sOk dOk wf cf = InitRes.ok c' →
        ∃ cmid b, applyRels ⟨states, rs, guards⟩ rl ⟨state_start, vars0, []⟩ = some cmid ∧
          cmid.current = state_start ∧ cmid.log = [] ∧
          fsm_state_transit ⟨states, rs, guards⟩ wf cf cmid state_start event_null =
            TRes.res b c') := by
  intro states guards rels rows vars0 mOk sOk dOk wf cf
  refine ⟨?_, ?_, ?_, ?_⟩
  · intro h; subst h; rfl
  · intro rs hrows hfail
    subst hrows
    refine ⟨(if mOk then [resMachine] else []) ++ (if sOk then [resSrc] else []) ++
      (if dOk then [resDest] else []), ?_⟩
    simp only [fsm_init, if_neg hfail]
    cases mOk <;> cases sOk <;> cases dOk <;> rfl
  · intro rs c' hrows hrels hok
    subst hrows; subst hrels
    by_cases hA : (mOk : Prop) ∧ sOk ∧ dOk
    · rcases hA with ⟨h1, h2, h3⟩
      subst h1; subst h2; subst h3
      have heq : fsm_init states guards none (some rs) vars0 true true true wf cf =
          (match fsm_state_transit ⟨states, rs, guards⟩ wf cf ⟨state_start, vars0, []⟩
              state_start event_null with
            | .res _ c => InitRes.ok c
            | .crash => InitRes.crash
            | .hang => InitRes.hang) := rfl
      rw [heq] at hok
      cases ht : fsm_state_transit ⟨states, rs, guards⟩ wf cf ⟨state_start, vars0, []⟩
          state_start event_null with
      | res b c => rw [ht] at hok; cases hok; exact ⟨b, rfl⟩
      | crash => rw [ht] at hok; cases hok
      | hang => rw [ht] at hok; cases hok
    · exfalso
      have heq : fsm_init states guards none (some rs) vars0 mOk sOk dOk wf cf =
          InitRes.nomem
            ((if mOk then [resMachine] else []) ++ (if sOk then [resSrc] else []) ++
              (if dOk then [resDest] else []))
            ((if dOk then [resDest] else []) ++ (if sOk then [resSrc] else []) ++
              (if mOk then [resMachine] else [])) := by
        simp only [fsm_init, if_neg hA]
      rw [heq] at hok; cases hok
  · intro rs rl c' hrows hrels hok
    subst hrows; subst hrels
    by_cases hA : (mOk : Prop) ∧ sOk ∧ dOk
    · rcases hA with ⟨h1, h2, h3⟩
      subst h1; subst h2; subst h3
      have heq : fsm_init states guards (some rl) (some rs) vars0 true true true wf cf =
          (match applyRels ⟨states, rs, guards⟩ rl ⟨state_start, vars0, []⟩ with
            | none => InitRes.crash
            | some cfg1 =>
              match fsm_state_transit ⟨states, rs, guards⟩ wf cf cfg1 cfg1.current
                  event_null with
                | .res _ c => InitRes.ok c
                | .crash => InitRes.crash
                | .hang => InitRes.hang) := rfl
      rw [heq] at hok
      cases har : applyRels ⟨states, rs, guards⟩ rl ⟨state_start, vars0, []⟩ with
      | none => rw [har] at hok; cases hok
      | some cfg1 =>
        rw [har] at hok
        have hkeep := applyRels_keeps ⟨states, rs, guards⟩ rl _ _ har
        have hcur : cfg1.current = state_start := hkeep.1
        have hlog : cfg1.log = [] := hkeep.2
        have hok2 : (match fsm_state_transit ⟨states, rs, guards⟩ wf cf cfg1 cfg1.current
            event_null with
          | TRes.res _ c => InitRes.ok c
          | TRes.crash => InitRes.crash
          | TRes.hang => InitRes.hang) = InitRes.ok c' := hok
        rw [hcur] at hok2
        cases ht : fsm_state_transit ⟨states, rs, guards⟩ wf cf cfg1 state_start
            event_null with
        | res b c => rw [ht] at hok2; cases hok2; exact ⟨cfg1, b, rfl, hcur, hlog, ht⟩
        | crash => rw [ht] at hok2; cases hok2
        | hang => rw [ht] at hok2; cases hok2
    · exfalso
      have heq : fsm_init states guards (some rl) (some rs) vars0 mOk sOk dOk wf cf =
          InitRes.nomem
            ((if mOk then [resMachine] else []) ++ (if sOk then [resSrc] else []) ++
              (if dOk then [resDest] else []))
            ((if dOk then [resDest] else []) ++ (if sOk then [resSrc] else []) ++
              (if mOk then [resMachine] else [])) := by
        simp only [fsm_init, if_neg hA]
      rw [heq] at hok; cases hok

/-- Witness for C8: a missing transition table yields `EINVAL`, and a
failed stack allocation releases exactly what was allocated. -/
theorem c8_init_transactional_witness :
    fsm_init statesA (fun _ _ => false) none none varsA true true true 7 5 =
      InitRes.einval ∧
    ∃ a, fsm_init statesA (fun _ _ => false) none (some []) varsA true false true 7 5 =
      InitRes.nomem a a.reverse :=
  ⟨(c8_init_transactional statesA (fun _ _ => false) none none varsA true true true 7 5).1
      rfl,
    (c8_init_transactional statesA (fun _ _ => false) none (some []) varsA true false true
        7 5).2.1 [] rfl (by simp)⟩

end HFSM

namespace HFSM

theorem nullAttempts_append (a b : List Ev) :
    nullAttempts (a ++ b) = nullAttempts a + nullAttempts b := by
  simp [nullAttempts, List.countP_append]

theorem logExt_refl (cfg : Config) : logExt cfg cfg :=
  ⟨[], by simp, rfl⟩

theorem logExt_trans {a b c : Config} (h1 : logExt a b) (h2 : logExt b c) : logExt a c := by
  obtain ⟨d1, e1, f1⟩ := h1
  obtain ⟨d2, e2, f2⟩ := h2
  exact ⟨d1 ++ d2, by rw [e2, e1, List.append_assoc],
    by rw [nullAttempts_append, f1, f2]⟩

theorem logExt_addLog (cfg : Config) (e : Ev) (he : nullAttempts [e] = 0) :
    logExt cfg (addLog cfg e) :=
  ⟨[e], rfl, he⟩

theorem logExt_setCurrent (cfg : Config) (x : Nat) :
    logExt cfg { cfg with current := x } :=
  ⟨[], by simp, rfl⟩

theorem logExt_entry_if (env : Env) (cfg : Config) (s : Nat) (c : Bool) :
    logExt cfg (entry_if_can_be env cfg s c) := by
  unfold entry_if_can_be
  split
  · exact logExt_addLog cfg _ rfl
  · exact logExt_refl cfg

theorem exit_if_log (env : Env) (cfg : Config) (s : Nat) (c : Bool) :
    (exit_if_can_be env cfg s c).log =
      cfg.log ++ (if (env.states s).hasExit then [Ev.leave s c] else []) := by
  unfold exit_if_can_be
  cases hp : (get_state_variable env cfg s).parent <;>
    cases hE : (env.states s).hasExit <;>
      simp [hp, hE, setHistory, addLog]

theorem logExt_exit_if (env : Env) (cfg : Config) (s : Nat) (c : Bool) :
    logExt cfg (exit_if_can_be env cfg s c) := by
  refine ⟨_, exit_if_log env cfg s c, ?_⟩
  cases (env.states s).hasExit <;> rfl

theorem logExt_entrySeq (env : Env) (l : List Nat) :
    ∀ (cfg : Config) (d0 : Nat), logExt cfg (entrySeq env cfg d0 l) := by
  induction l with
  | nil =>
    intro cfg d0
    simpa [entrySeq] using logExt_entry_if env cfg d0 true
  | cons d' rest ih =>
    intro cfg d0
    simp only [entrySeq]
    exact logExt_trans (logExt_entry_if env cfg d0 false) (ih _ d')

theorem logExt_exitWalk (env : Env) :
    ∀ (n : Nat) (cfg : Config) (srcOpt anc : Option Nat) (c' : Config),
      exitWalk env n cfg srcOpt anc = CRes.ok c' → logExt cfg c' := by
  intro n
  induction n with
  | zero => intro cfg srcOpt anc c' h; cases h
  | succ n ih =>
    intro cfg srcOpt anc c' h
    simp only [exitWalk] at h
    by_cases hs : srcOpt = anc
    · rw [if_pos hs] at h
      cases h
      exact logExt_refl cfg
    · rw [if_neg hs] at h
      cases srcOpt with
      | none => cases h
      | some s =>
        exact logExt_trans (logExt_exit_if env cfg s _) (ih _ _ _ _ h)

theorem logExt_change (env : Env) (wf : Nat) :
    ∀ (fuel : Nat) (cfg : Config) (t : Nat) (c' : Config),
      fsm_change_state env wf fuel cfg t = CRes.ok c' → logExt cfg c' := by
  intro fuel
  induction fuel with
  | zero => intro cfg t c' h; cases h
  | succ n ih =>
    intro cfg t c' h
    by_cases hc : cfg.current = t
    · simp only [fsm_change_state, if_pos hc] at h
      cases h
      exact logExt_trans (logExt_exit_if env cfg cfg.current true)
        (logExt_entry_if env _ t true)
    · simp only [fsm_change_state, if_neg hc] at h
      cases hS : ancestors env cfg cfg.current wf with
      | none => simp only [hS] at h; cases h
      | some S =>
        cases hD : ancestors env cfg t wf with
        | none => simp only [hS, hD] at h; cases h
        | some D =>
          simp only [hS, hD] at h
          cases hL : lockstep (stackOf S) (stackOf D) with
          | none => simp only [hL] at h; cases h
          | some trip =>
            obtain ⟨st, dt, rest⟩ := trip
            simp only [hL] at h
            cases dt with
            | none => simp only [] at h; cases h
            | some d0 =>
              cases st with
              | none =>
                simp only [] at h
                cases hW : exitWalk env wf cfg (some cfg.current) (some cfg.current) with
                | crash => simp only [hW] at h; cases h
                | hang => simp only [hW] at h; cases h
                | ok cfg1 =>
                  simp only [hW] at h
                  have hx : logExt cfg (entrySeq env { cfg1 with current := t } d0 rest) :=
                    logExt_trans (logExt_exitWalk env _ _ _ _ _ hW)
                      (logExt_trans (logExt_setCurrent cfg1 t) (logExt_entrySeq env rest _ d0))
                  cases hH : (get_state_variable env
                      (entrySeq env { cfg1 with current := t } d0 rest)
                      (rest.getLastD d0)).history with
                  | none => simp only [hH] at h; cases h; exact hx
                  | some hst =>
                    simp only [hH] at h
                    exact logExt_trans hx (ih _ _ _ h)
              | some s =>
                simp only [] at h
                cases hW : exitWalk env wf cfg (some cfg.current)
                    ((get_state_variable env cfg s).parent) with
                | crash => simp only [hW] at h; cases h
                | hang => simp only [hW] at h; cases h
                | ok cfg1 =>
                  simp only [hW] at h
                  have hx : logExt cfg (entrySeq env { cfg1 with current := t } d0 rest) :=
                    logExt_trans (logExt_exitWalk env _ _ _ _ _ hW)
                      (logExt_trans (logExt_setCurrent cfg1 t) (logExt_entrySeq env rest _ d0))
                  cases hH : (get_state_variable env
                      (entrySeq env { cfg1 with current := t } d0 rest)
                      (rest.getLastD d0)).history with
                  | none => simp only [hH] at h; cases h; exact hx
                  | some hst =>
                    simp only [hH] at h
                    exact logExt_trans hx (ih _ _ _ h)

theorem takeRow_res (env : Env) (wf cf : Nat) (r : Row) (cfg : Config) (b : Bool)
    (c : Config) : takeRow env wf cf r cfg = TRes.res b c → logExt cfg c := by
  intro h
  simp only [takeRow] at h
  cases ha : r.action with
  | none =>
    simp only [ha] at h
    cases hd : r.dst with
    | none => simp only [hd] at h; cases h; exact logExt_refl cfg
    | some t =>
      simp only [hd] at h
      cases hC : fsm_change_state env wf cf cfg t with
      | ok c2 => simp only [hC] at h; cases h; exact logExt_change env wf _ _ _ _ hC
      | crash => simp only [hC] at h; cases h
      | hang => simp only [hC] at h; cases h
  | some a =>
    simp only [ha] at h
    cases hd : r.dst with
    | none =>
      simp only [hd] at h; cases h
      exact logExt_addLog cfg (Ev.act a) rfl
    | some t =>
      simp only [hd] at h
      cases hC : fsm_change_state env wf cf (addLog cfg (Ev.act a)) t with
      | ok c2 =>
        simp only [hC] at h; cases h
        exact logExt_trans (logExt_addLog cfg (Ev.act a) rfl)
          (logExt_change env wf _ _ _ _ hC)
      | crash => simp only [hC] at h; cases h
      | hang => simp only [hC] at h; cases h

theorem transitRows_res (env : Env) (wf cf st ev : Nat) :
    ∀ (rows : List Row) (cfg : Config) (b : Bool) (c : Config),
      transitRows env wf cf st ev rows cfg = TRes.res b c → logExt cfg c := by
  intro rows
  induction rows with
  | nil =>
    intro cfg b c h
    simp only [transitRows] at h
    cases h
    exact logExt_refl cfg
  | cons r rest ih =>
    intro cfg b c h
    simp only [transitRows] at h
    by_cases hm : r.src = st ∧ r.event = ev
    · rw [if_pos hm] at h
      cases hg : r.cond with
      | none => simp only [hg] at h; exact takeRow_res env wf cf r cfg b c h
      | some g =>
        simp only [hg] at h
        cases hgv : env.guards g cfg <;> simp only [hgv] at h
        · exact logExt_trans (logExt_addLog cfg (Ev.guard g false) rfl) (ih _ _ _ h)
        · exact logExt_trans (logExt_addLog cfg (Ev.guard g true) rfl)
            (takeRow_res env wf cf r _ b c h)
    · rw [if_neg hm] at h
      exact ih _ _ _ h

theorem fsm_state_transit_res (env : Env) (wf cf : Nat) (cfg : Config) (st ev : Nat)
    (b : Bool) (c : Config) :
    fsm_state_transit env wf cf cfg st ev = TRes.res b c →
    ∃ Δ, c.log = cfg.log ++ (Ev.attempt st ev :: Δ) ∧ nullAttempts Δ = 0 := by
  intro h
  obtain ⟨Δ, hΔ, hn⟩ := transitRows_res env wf cf st ev env.corresps _ b c h
  refine ⟨Δ, ?_, hn⟩
  rw [hΔ]
  simp [addLog]

theorem fsm_state_transit_logExt (env : Env) (wf cf : Nat) (cfg : Config) (st ev : Nat)
    (b : Bool) (c : Config) (hev : ev ≠ event_null) :
    fsm_state_transit env wf cf cfg st ev = TRes.res b c → logExt cfg c := by
  intro h
  obtain ⟨Δ, hΔ, hn⟩ := fsm_state_transit_res env wf cf cfg st ev b c h
  refine ⟨Ev.attempt st ev :: Δ, hΔ, ?_⟩
  have h2 : nullAttempts (Ev.attempt st ev :: Δ) =
      nullAttempts [Ev.attempt st ev] + nullAttempts Δ :=
    nullAttempts_append [Ev.attempt st ev] Δ
  have hbe : (ev == event_null) = false := by
    simp [hev]
  have h1 : nullAttempts [Ev.attempt st ev] = 0 := by
    simp [nullAttempts, List.countP, List.countP.go, hbe]
  rw [h2, h1, hn]

theorem bubbleLoop_logExt (env : Env) (wf cf ev : Nat) (hev : ev ≠ event_null) :
    ∀ (bf : Nat) (cfg : Config) (stOpt : Option Nat) (c' : Config),
      bubbleLoop env wf cf bf cfg stOpt ev = CRes.ok c' → logExt cfg c' := by
  intro bf
  induction bf with
  | zero => intro cfg stOpt c' h; cases h
  | succ bf ih =>
    intro cfg stOpt c' h
    cases stOpt with
    | none =>
      simp only [bubbleLoop] at h
      cases h
      exact logExt_refl cfg
    | some st =>
      simp only [bubbleLoop] at h
      cases ht : fsm_state_transit env wf cf cfg st ev with
      | res bb cc =>
        simp only [ht] at h
        cases bb
        · exact logExt_trans (fsm_state_transit_logExt env wf cf cfg st ev false cc hev ht)
            (ih _ _ _ h)
        · cases h
          exact fsm_state_transit_logExt env wf cf cfg st ev true c' hev ht
      | crash => simp only [ht] at h; cases h
      | hang => simp only [ht] at h; cases h

end HFSM

namespace HFSM

theorem nullAttempts_attempt_null (s : Nat) :
    nullAttempts [Ev.attempt s event_null] = 1 := rfl

theorem fsm_transition_ok_cases (env : Env) (wf cf bf : Nat) (cfg : Config) (ev : Nat)
    (c' : Config) :
    fsm_transition env wf cf bf cfg ev = CRes.ok c' →
    ∃ cm b, bubbleLoop env wf cf bf cfg (some cfg.current) ev = CRes.ok cm ∧
      fsm_state_transit env wf cf cm cm.current event_null = TRes.res b c' := by
  intro h
  unfold fsm_transition at h
  cases hb : bubbleLoop env wf cf bf cfg (some cfg.current) ev with
  | ok cm =>
    simp only [hb] at h
    cases ht : fsm_state_transit env wf cf cm cm.current event_null with
    | res b cc => simp only [ht] at h; cases h; exact ⟨cm, b, rfl, ht⟩
    | crash => simp only [ht] at h; cases h
    | hang => simp only [ht] at h; cases h
  | crash => simp only [hb] at h; cases h
  | hang => simp only [hb] at h; cases h

theorem fsm_init_ok_cases :
    ∀ (states : Nat → StateDef) (guards : Nat → Config → Bool)
      (rels : Option (List Rel)) (rows : Option (List Row))
      (vars0 : Nat → Variable) (mOk sOk dOk : Bool) (wf cf : Nat) (c' : Config),
      fsm_init states guards rels rows vars0 mOk sOk dOk wf cf = InitRes.ok c' →
      ∃ rs cmid b, rows = some rs ∧ cmid.current = state_start ∧ cmid.log = [] ∧
        fsm_state_transit ⟨states, rs, guards⟩ wf cf cmid state_start event_null =
          TRes.res b c' := by
  intro states guards rels rows vars0 mOk sOk dOk wf cf c' hok
  cases rows with
  | none => cases hok
  | some rs =>
    by_cases hA : (mOk : Prop) ∧ sOk ∧ dOk
    · rcases hA with ⟨h1, h2, h3⟩
      subst h1; subst h2; subst h3
      cases rels with
      | none =>
        have hok2 : (match fsm_state_transit ⟨states, rs, guards⟩ wf cf
            ⟨state_start, vars0, []⟩ state_start event_null with
          | TRes.res _ c => InitRes.ok c
          | TRes.crash => InitRes.crash
          | TRes.hang => InitRes.hang) = InitRes.ok c' := hok
        cases ht : fsm_state_transit ⟨states, rs, guards⟩ wf cf ⟨state_start, vars0, []⟩
            state_start event_null with
        | res b cc =>
          rw [ht] at hok2
          cases hok2
          exact ⟨rs, ⟨state_start, vars0, []⟩, b, rfl, rfl, rfl, ht⟩
        | crash => rw [ht] at hok2; cases hok2
        | hang => rw [ht] at hok2; cases hok2
      | some rl =>
        have hok2 : (match applyRels ⟨states, rs, guards⟩ rl ⟨state_start, vars0, []⟩ with
          | none => InitRes.crash
          | some cfg1 =>
            match fsm_state_transit ⟨states, rs, guards⟩ wf cf cfg1 cfg1.current
                event_null with
              | TRes.res _ c => InitRes.ok c
              | TRes.crash => InitRes.crash
              | TRes.hang => InitRes.hang) = InitRes.ok c' := hok
        cases har : applyRels ⟨states, rs, guards⟩ rl ⟨state_start, vars0, []⟩ with
        | none => rw [har] at hok2; cases hok2
        | some cfg1 =>
          rw [har] at hok2
          have hkeep := applyRels_keeps ⟨states, rs, guards⟩ rl _ _ har
          have hcur : cfg1.current = state_start := hkeep.1
          have hlog : cfg1.log = [] := hkeep.2
          have hok3 : (match fsm_state_transit ⟨states, rs, guards⟩ wf cf cfg1 cfg1.current
              event_null with
            | TRes.res _ c => InitRes.ok c
            | TRes.crash => InitRes.crash
            | TRes.hang => InitRes.hang) = InitRes.ok c' := hok2
          rw [hcur] at hok3
          cases ht : fsm_state_transit ⟨states, rs, guards⟩ wf cf cfg1 state_start
              event_null with
          | res b cc =>
            rw [ht] at hok3
            cases hok3
            exact ⟨rs, cfg1, b, rfl, hcur, hlog, ht⟩
          | crash => rw [ht] at hok3; cases hok3
          | hang => rw [ht] at hok3; cases hok3
    · exfalso
      have heq : fsm_init states guards rels (some rs) vars0 mOk sOk dOk wf cf =
          InitRes.nomem
            ((if mOk then [resMachine] else []) ++ (if sOk then [resSrc] else []) ++
              (if dOk then [resDest] else []))
            ((if dOk then [resDest] else []) ++ (if sOk then [resSrc] else []) ++
              (if mOk then [resMachine] else [])) := by
        simp only [fsm_init, if_neg hA]
      rw [heq] at hok; cases hok

/-- C3: after every call of `fsm_transition` that completes, exactly one
additional null-event dispatch attempt is performed, at the state that is
current once the bubbling pass settles — the trace of the call contains
exactly one more null-event attempt than before, recorded at the
post-bubbling current state; and construction performs exactly one
null-event dispatch attempt, at `state_start`.  A transition row keyed on
the null event therefore gets its chance to fire as soon as its state
becomes current, with no external event. -/
theorem c3_null_event_autofire :
    (∀ (env : Env) (wf cf bf : Nat) (cfg : Config) (ev : Nat) (c' : Config),
      ev ≠ event_null →
      fsm_transition env wf cf bf cfg ev = CRes.ok c' →
      ∃ cm b, bubbleLoop env wf cf bf cfg (some cfg.current) ev = CRes.ok cm ∧
        fsm_state_transit env wf cf cm cm.current event_null = TRes.res b c' ∧
        Ev.attempt cm.current event_null ∈ c'.log ∧
        nullAttempts c'.log = nullAttempts cfg.log + 1) ∧
    (∀ (states : Nat → StateDef) (guards : Nat → Config → Bool)
      (rels : Option (List Rel)) (rows : Option (List Row))
      (vars0 : Nat → Variable) (mOk sOk dOk : Bool) (wf cf : Nat) (c' : Config),
      fsm_init states guards rels rows vars0 mOk sOk dOk wf cf = InitRes.ok c' →
      nullAttempts c'.log = 1 ∧ Ev.attempt state_start event_null ∈ c'.log) := by
  constructor
  · intro env wf cf bf cfg ev c' hev hfire
    obtain ⟨cm, b, hb, ht⟩ := fsm_transition_ok_cases env wf cf bf cfg ev c' hfire
    obtain ⟨Δb, hbl, hbn⟩ := bubbleLoop_logExt env wf cf ev hev bf cfg _ cm hb
    obtain ⟨Δ, hlog, hn⟩ := fsm_state_transit_res env wf cf cm cm.current event_null b c' ht
    refine ⟨cm, b, hb, ht, ?_, ?_⟩
    · rw [hlog]; simp
    · have e1 : Ev.attempt cm.current event_null :: Δ =
          [Ev.attempt cm.current event_null] ++ Δ := rfl
      rw [hlog, e1, nullAttempts_append, nullAttempts_append,
        nullAttempts_attempt_null, hn, hbl, nullAttempts_append, hbn]
  · intro states guards rels rows vars0 mOk sOk dOk wf cf c' hok
    obtain ⟨rs, cmid, b, hrows, hcur, hlog0, ht⟩ :=
      fsm_init_ok_cases states guards rels rows vars0 mOk sOk dOk wf cf c' hok
    obtain ⟨Δ, hlog, hn⟩ :=
      fsm_state_transit_res ⟨states, rs, guards⟩ wf cf cmid state_start event_null b c' ht
    constructor
    · have e1 : Ev.attempt state_start event_null :: Δ =
          [Ev.attempt state_start event_null] ++ Δ := rfl
      rw [hlog, hlog0, e1, List.nil_append, nullAttempts_append,
        nullAttempts_attempt_null, hn]
    · rw [hlog]; simp

/-- Witness for C3: firing the unmatched event 7 on the machine with only
a completion row records exactly one null-event attempt. -/
theorem c3_null_event_autofire_witness :
    ∃ cm b, bubbleLoop envD 7 5 6 cfgD (some cfgD.current) 7 = CRes.ok cm ∧
      fsm_state_transit envD 7 5 cm cm.current event_null = TRes.res b cfgD' ∧
      Ev.attempt cm.current event_null ∈ cfgD'.log ∧
      nullAttempts cfgD'.log = nullAttempts cfgD.log + 1 :=
  c3_null_event_autofire.1 envD 7 5 6 cfgD 7 cfgD' (by decide) rfl

end HFSM

namespace HFSM

theorem ancestors_vars_congr (env : Env) {a b : Config} (hv : a.vars = b.vars) :
    ∀ (n s : Nat), ancestors env a s n = ancestors env b s n := by
  intro n
  induction n with
  | zero => intro s; rfl
  | succ n ih =>
    intro s
    simp only [ancestors, get_state_variable, hv]
    cases (b.vars (resolveVar env s)).parent with
    | none => rfl
    | some p => simp only [ih p]

theorem ancestors_shape (env : Env) (cfg : Config) :
    ∀ (n s : Nat) (l : List Nat), ancestors env cfg s n = some l → ∃ tl, l = s :: tl := by
  intro n
  cases n with
  | zero => intro s l h; cases h
  | succ n =>
    intro s l h
    simp only [ancestors] at h
    cases hp : (get_state_variable env cfg s).parent <;> simp only [hp] at h
    · cases h; exact ⟨[], rfl⟩
    · cases ha : ancestors env cfg _ n <;> rw [ha] at h
      · cases h
      · cases h; exact ⟨_, rfl⟩

theorem transitRows_noMatch (env : Env) (wf cf st ev : Nat) :
    ∀ (rows : List Row) (cfg : Config), noMatch rows st ev = true →
      transitRows env wf cf st ev rows cfg = TRes.res false cfg := by
  intro rows
  induction rows with
  | nil => intro cfg _; rfl
  | cons r rest ih =>
    intro cfg h
    simp only [noMatch, List.all_cons, Bool.and_eq_true] at h
    have hm : ¬(r.src = st ∧ r.event = ev) := by
      rintro ⟨e1, e2⟩
      rcases h with ⟨h1, _⟩
      simp [e1, e2] at h1
    simp only [transitRows, if_neg hm]
    exact ih cfg h.2

theorem fsm_state_transit_noMatch (env : Env) (wf cf : Nat) (cfg : Config) (st ev : Nat)
    (h : noMatch env.corresps st ev = true) :
    fsm_state_transit env wf cf cfg st ev = TRes.res false (addLog cfg (Ev.attempt st ev)) :=
  transitRows_noMatch env wf cf st ev env.corresps _ h

theorem bubbleLoop_noMatch (env : Env) (wf cf ev : Nat) :
    ∀ (S : List Nat) (n bf : Nat) (cfg : Config) (st : Nat),
      ancestors env cfg st n = some S →
      (∀ s ∈ S, noMatch env.corresps s ev = true) →
      S.length < bf →
      bubbleLoop env wf cf bf cfg (some st) ev =
        CRes.ok { cfg with log := cfg.log ++ attemptsFor S ev } := by
  intro S
  induction S with
  | nil =>
    intro n bf cfg st h _ _
    obtain ⟨tl, htl⟩ := ancestors_shape env cfg n st [] h
    exact List.noConfusion htl
  | cons s0 rest ih =>
    intro n bf cfg st hanc hnm hlen
    have hst : s0 = st := by
      obtain ⟨tl, htl⟩ := ancestors_shape env cfg n st _ hanc
      injection htl with hh _
    subst hst
    cases n with
    | zero => cases hanc
    | succ n' =>
      simp only [ancestors] at hanc
      cases bf with
      | zero => exact absurd hlen (by simp)
      | succ bf' =>
        have hm0 : noMatch env.corresps s0 ev = true :=
          hnm s0 (List.mem_cons_self s0 rest)
        have e1 : bubbleLoop env wf cf (bf' + 1) cfg (some s0) ev =
            bubbleLoop env wf cf bf' (addLog cfg (Ev.attempt s0 ev))
              ((get_state_variable env (addLog cfg (Ev.attempt s0 ev)) s0).parent) ev := by
          simp only [bubbleLoop, fsm_state_transit_noMatch env wf cf cfg s0 ev hm0]
        rw [e1]
        have hpsame : (get_state_variable env (addLog cfg (Ev.attempt s0 ev)) s0).parent =
            (get_state_variable env cfg s0).parent := rfl
        rw [hpsame]
        cases hp : (get_state_variable env cfg s0).parent with
        | none =>
          simp only [hp] at hanc
          have hrest : rest = [] := by
            injection hanc with hl
            injection hl with _ ht2
            exact ht2.symm
          subst hrest
          cases bf' with
          | zero => simp at hlen
          | succ bf'' =>
            simp only [bubbleLoop]
            rfl
        | some p =>
          simp only [hp] at hanc
          cases ha : ancestors env cfg p n' with
          | none => rw [ha] at hanc; cases hanc
          | some l' =>
            rw [ha, Option.map_some'] at hanc
            have hrest : l' = rest := by
              simpa using hanc
            have ha3 : ancestors env cfg p n' = some rest := by rw [ha, hrest]
            have ha2 : ancestors env (addLog cfg (Ev.attempt s0 ev)) p n' = some rest :=
              (@ancestors_vars_congr env (addLog cfg (Ev.attempt s0 ev)) cfg rfl n' p).trans
                ha3
            rw [ih n' bf' (addLog cfg (Ev.attempt s0 ev)) p ha2
              (fun s hs => hnm s (List.mem_cons_of_mem _ hs))
              (Nat.lt_of_succ_lt_succ hlen)]
            congr 1
            simp [addLog, attemptsFor]

end HFSM

namespace HFSM

theorem takeRow_matched (env : Env) (wf cf : Nat) (r : Row) (cfg : Config) (b : Bool)
    (c : Config) : takeRow env wf cf r cfg = TRes.res b c → b = true := by
  intro h
  simp only [takeRow] at h
  cases ha : r.action with
  | none =>
    simp only [ha] at h
    cases hd : r.dst with
    | none => simp only [hd] at h; cases h; rfl
    | some t =>
      simp only [hd] at h
      cases hC : fsm_change_state env wf cf cfg t with
      | ok c2 => simp only [hC] at h; cases h; rfl
      | crash => simp only [hC] at h; cases h
      | hang => simp only [hC] at h; cases h
  | some a =>
    simp only [ha] at h
    cases hd : r.dst with
    | none => simp only [hd] at h; cases h; rfl
    | some t =>
      simp only [hd] at h
      cases hC : fsm_change_state env wf cf (addLog cfg (Ev.act a)) t with
      | ok c2 => simp only [hC] at h; cases h; rfl
      | crash => simp only [hC] at h; cases h
      | hang => simp only [hC] at h; cases h

theorem transitRows_firstMatch_nocond (env : Env) (wf cf st ev : Nat) :
    ∀ (rows : List Row) (cfg : Config) (r : Row),
      firstMatch rows st ev = some r → r.cond = none →
      transitRows env wf cf st ev rows cfg = takeRow env wf cf r cfg := by
  intro rows
  induction rows with
  | nil => intro cfg r h _; cases h
  | cons r0 rest ih =>
    intro cfg r hfm hcond
    simp only [firstMatch, List.find?] at hfm
    cases hb : (r0.src == st && r0.event == ev) <;> rw [hb] at hfm
    · have hm : ¬(r0.src = st ∧ r0.event = ev) := by
        rintro ⟨e1, e2⟩
        simp [e1, e2] at hb
      simp only [transitRows, if_neg hm]
      exact ih cfg r hfm hcond
    · have hr : r0 = r := by injection hfm
      subst hr
      have hm : r0.src = st ∧ r0.event = ev := by
        simp only [Bool.and_eq_true, beq_iff_eq] at hb
        exact hb
      simp only [transitRows, if_pos hm, hcond]

theorem transitRows_firstMatch_accept (env : Env) (wf cf st ev : Nat) :
    ∀ (rows : List Row) (cfg : Config) (r : Row),
      firstMatch rows st ev = some r →
      (∀ g, r.cond = some g → env.guards g cfg = true) →
      transitRows env wf cf st ev rows cfg =
        takeRow env wf cf r (guardStep env r cfg) := by
  intro rows
  induction rows with
  | nil => intro cfg r h _; cases h
  | cons r0 rest ih =>
    intro cfg r hfm hacc
    simp only [firstMatch, List.find?] at hfm
    cases hb : (r0.src == st && r0.event == ev) <;> rw [hb] at hfm
    · have hm : ¬(r0.src = st ∧ r0.event = ev) := by
        rintro ⟨e1, e2⟩
        simp [e1, e2] at hb
      simp only [transitRows, if_neg hm]
      exact ih cfg r hfm hacc
    · have hr : r0 = r := by injection hfm
      subst hr
      have hm : r0.src = st ∧ r0.event = ev := by
        simp only [Bool.and_eq_true, beq_iff_eq] at hb
        exact hb
      cases hc : r0.cond with
      | none => simp only [transitRows, if_pos hm, hc, guardStep]
      | some g =>
        have hg := hacc g hc
        simp only [transitRows, if_pos hm, hc, guardStep, hg, if_true]

theorem transitRows_nochange (env : Env) (wf cf st ev : Nat) :
    ∀ (rows : List Row) (cfg : Config),
      (∀ r ∈ rows, r.src = st → r.event = ev → r.dst = none) →
      ∃ b c, transitRows env wf cf st ev rows cfg = TRes.res b c ∧
        c.current = cfg.current ∧ c.vars = cfg.vars := by
  intro rows
  induction rows with
  | nil => intro cfg _; exact ⟨false, cfg, rfl, rfl, rfl⟩
  | cons r rest ih =>
    intro cfg hyp
    by_cases hm : r.src = st ∧ r.event = ev
    · have hdst : r.dst = none := hyp r (List.mem_cons_self r rest) hm.1 hm.2
      cases hg : r.cond with
      | none =>
        cases ha : r.action with
        | none =>
          refine ⟨true, cfg, ?_, rfl, rfl⟩
          simp only [transitRows, if_pos hm, hg, takeRow, ha, hdst]
        | some a =>
          refine ⟨true, addLog cfg (Ev.act a), ?_, rfl, rfl⟩
          simp only [transitRows, if_pos hm, hg, takeRow, ha, hdst]
      | some g =>
        cases hgv : env.guards g cfg with
        | false =>
          obtain ⟨b, c, hh, hc, hv⟩ := ih (addLog cfg (Ev.guard g false))
            (fun r' hr' => hyp r' (List.mem_cons_of_mem r hr'))
          refine ⟨b, c, ?_, hc, hv⟩
          simp only [transitRows, if_pos hm, hg, hgv]
          exact hh
        | true =>
          cases ha : r.action with
          | none =>
            refine ⟨true, addLog cfg (Ev.guard g true), ?_, rfl, rfl⟩
            simp only [transitRows, if_pos hm, hg, hgv, takeRow, ha, hdst]
            simp
          | some a =>
            refine ⟨true, addLog (addLog cfg (Ev.guard g true)) (Ev.act a), ?_, rfl, rfl⟩
            simp only [transitRows, if_pos hm, hg, hgv, takeRow, ha, hdst]
            simp
    · obtain ⟨b, c, hh, hc, hv⟩ := ih cfg (fun r' hr' => hyp r' (List.mem_cons_of_mem r hr'))
      refine ⟨b, c, ?_, hc, hv⟩
      simp only [transitRows, if_neg hm]
      exact hh

theorem fsm_state_transit_nochange (env : Env) (wf cf : Nat) (cfg : Config) (st ev : Nat)
    (hyp : ∀ r ∈ env.corresps, r.src = st → r.event = ev → r.dst = none) :
    ∃ b c, fsm_state_transit env wf cf cfg st ev = TRes.res b c ∧
      c.current = cfg.current ∧ c.vars = cfg.vars := by
  obtain ⟨b, c, hh, hc, hv⟩ :=
    transitRows_nochange env wf cf st ev env.corresps (addLog cfg (Ev.attempt st ev)) hyp
  exact ⟨b, c, hh, hc, hv⟩

theorem bubbleLoop_reach (env : Env) (wf cf ev : Nat) :
    ∀ (P : List Nat) (tl : List Nat) (N : Nat) (r : Row) (n bf : Nat) (cfg : Config)
      (st : Nat),
      ancestors env cfg st n = some (P ++ N :: tl) →
      (∀ s ∈ P, noMatch env.corresps s ev = true) →
      P.length < bf →
      firstMatch env.corresps N ev = some r →
      guardsAccept env r cfg →
      ∃ c', c'.current = cfg.current ∧ c'.vars = cfg.vars ∧
        c'.log = cfg.log ++ attemptsFor P ev ∧
        bubbleLoop env wf cf bf cfg (some st) ev =
          (match takeRow env wf cf r (guardStep env r (addLog c' (Ev.attempt N ev))) with
            | TRes.res _ c => CRes.ok c
            | TRes.crash => CRes.crash
            | TRes.hang => CRes.hang) := by
  intro P
  induction P with
  | nil =>
    intro tl N r n bf cfg st hanc _ hlen hfm hacc
    have hst : N = st := by
      obtain ⟨tl2, htl⟩ := ancestors_shape env cfg n st _ hanc
      rw [List.nil_append] at htl
      injection htl with hh _
    subst hst
    cases bf with
    | zero => exact absurd hlen (by simp)
    | succ bf' =>
      refine ⟨cfg, rfl, rfl, by simp [attemptsFor], ?_⟩
      have htr : fsm_state_transit env wf cf cfg N ev =
          takeRow env wf cf r (guardStep env r (addLog cfg (Ev.attempt N ev))) :=
        transitRows_firstMatch_accept env wf cf N ev env.corresps _ r hfm
          (fun g hg => hacc g hg _)
      simp only [bubbleLoop, htr]
      cases htk : takeRow env wf cf r (guardStep env r (addLog cfg (Ev.attempt N ev))) with
      | res b c =>
        have hb := takeRow_matched env wf cf r _ b c htk
        subst hb
        rfl
      | crash => rfl
      | hang => rfl
  | cons s0 P' ih =>
    intro tl N r n bf cfg st hanc hnm hlen hfm hacc
    have hst : s0 = st := by
      obtain ⟨tl2, htl⟩ := ancestors_shape env cfg n st _ hanc
      rw [List.cons_append] at htl
      injection htl with hh _
    subst hst
    cases n with
    | zero => cases hanc
    | succ n' =>
      simp only [ancestors] at hanc
      cases bf with
      | zero => exact absurd hlen (by simp)
      | succ bf' =>
        have hm0 : noMatch env.corresps s0 ev = true :=
          hnm s0 (List.mem_cons_self s0 P')
        have e1 : bubbleLoop env wf cf (bf' + 1) cfg (some s0) ev =
            bubbleLoop env wf cf bf' (addLog cfg (Ev.attempt s0 ev))
              ((get_state_variable env (addLog cfg (Ev.attempt s0 ev)) s0).parent) ev := by
          simp only [bubbleLoop, fsm_state_transit_noMatch env wf cf cfg s0 ev hm0]
        rw [e1]
        have hpsame : (get_state_variable env (addLog cfg (Ev.attempt s0 ev)) s0).parent =
            (get_state_variable env cfg s0).parent := rfl
        rw [hpsame]
        cases hp : (get_state_variable env cfg s0).parent with
        | none =>
          simp only [hp] at hanc
          exfalso
          have : (P' ++ N :: tl : List Nat) = [] := by
            injection hanc with hl
            injection hl with _ ht2
            exact ht2.symm
          simp at this
        | some p =>
          simp only [hp] at hanc
          cases ha : ancestors env cfg p n' with
          | none => rw [ha] at hanc; cases hanc
          | some l' =>
            rw [ha, Option.map_some'] at hanc
            have hrest : l' = P' ++ N :: tl := by
              simpa using hanc
            have ha3 : ancestors env cfg p n' = some (P' ++ N :: tl) := by rw [ha, hrest]
            have ha2 : ancestors env (addLog cfg (Ev.attempt s0 ev)) p n' =
                some (P' ++ N :: tl) :=
              (@ancestors_vars_congr env (addLog cfg (Ev.attempt s0 ev)) cfg rfl n' p).trans
                ha3
            obtain ⟨c', hc1, hc2, hc3, hc4⟩ := ih tl N r n' bf'
              (addLog cfg (Ev.attempt s0 ev)) p ha2
              (fun s hs => hnm s (List.mem_cons_of_mem _ hs))
              (Nat.lt_of_succ_lt_succ hlen) hfm hacc
            refine ⟨c', hc1.trans rfl, hc2.trans rfl, ?_, hc4⟩
            rw [hc3]
            simp [addLog, attemptsFor]

end HFSM

namespace HFSM

/-- C6 counterexample: in a machine whose only row is a null-event
completion row from state 1 to state 2, the event 7 is matched nowhere on
the ancestor chain of the current state 1 (a root), yet firing event 7
changes the current state to 2 — the unconditional null-event dispatch at
the end of `fsm_transition` takes the completion row, contradicting the
claim that the machine's current state is unchanged by the fire call. -/
theorem c6_counterexample :
    noMatch envD.corresps 1 7 = true ∧
    (get_state_variable envD cfgD 1).parent = none ∧
    cfgD.current = 1 ∧
    (fsm_transition envD 7 5 6 cfgD 7).currentOf = some 2 :=
  ⟨rfl, rfl, rfl, rfl⟩

/-- C6 (amended): when the fired event is unmatched at the current leaf but
first matched at an ancestor `N` reached via parent links, and the first
matching row's guard (if any) accepts in the machine state the bubbling
pass reaches, the bubbling pass performs exactly that row (its guard
evaluation, its action and its destination state change); and when the
event is matched nowhere along the chain, the bubbling pass leaves the
current state and the variable store unchanged, and the whole fire call
leaves them unchanged provided no null-event row with a destination is
declared on the current state (the trailing null-event dispatch may
otherwise still change the state). -/
theorem c6_event_bubbling :
    (∀ (env : Env) (wf cf bf n : Nat) (cfg : Config) (ev : Nat) (S : List Nat),
      ancestors env cfg cfg.current n = some S →
      (∀ s ∈ S, noMatch env.corresps s ev = true) →
      S.length < bf →
      (∀ r ∈ env.corresps, r.src = cfg.current → r.event = event_null → r.dst = none) →
      ∃ c', fsm_transition env wf cf bf cfg ev = CRes.ok c' ∧
        c'.current = cfg.current ∧ c'.vars = cfg.vars) ∧
    (∀ (env : Env) (wf cf bf n : Nat) (cfg : Config) (ev : Nat) (P tl : List Nat)
      (N : Nat) (r : Row),
      ancestors env cfg cfg.current n = some (P ++ N :: tl) →
      (∀ s ∈ P, noMatch env.corresps s ev = true) →
      P.length < bf →
      firstMatch env.corresps N ev = some r →
      guardsAccept env r cfg →
      ∃ c', c'.current = cfg.current ∧ c'.vars = cfg.vars ∧
        bubbleLoop env wf cf bf cfg (some cfg.current) ev =
          (match takeRow env wf cf r (guardStep env r (addLog c' (Ev.attempt N ev))) with
            | TRes.res _ c => CRes.ok c
            | TRes.crash => CRes.crash
            | TRes.hang => CRes.hang)) := by
  constructor
  · intro env wf cf bf n cfg ev S hanc hnm hlen hnull
    have hbub := bubbleLoop_noMatch env wf cf ev S n bf cfg cfg.current hanc hnm hlen
    obtain ⟨b, c, hh, hc, hv⟩ := fsm_state_transit_nochange env wf cf
      { cfg with log := cfg.log ++ attemptsFor S ev }
      ({ cfg with log := cfg.log ++ attemptsFor S ev } : Config).current event_null hnull
    refine ⟨c, ?_, hc, hv⟩
    unfold fsm_transition
    simp only [hbub]
    rw [hh]
  · intro env wf cf bf n cfg ev P tl N r hanc hnm hlen hfm hacc
    obtain ⟨c', h1, h2, h3, h4⟩ :=
      bubbleLoop_reach env wf cf ev P tl N r n bf cfg cfg.current hanc hnm hlen hfm hacc
    exact ⟨c', h1, h2, h4⟩

/-- Witness for C6's amended theorem, exercising both halves: in the
machine with no transition rows at all, firing event 7 from leaf 2 bubbles
through the whole chain and leaves the current state and variable store
unchanged; and in the machine whose only row sits on the composite parent
1, guarded by the accepting guard 5, the bubbling pass from leaf 2 takes
exactly that row. -/
theorem c6_event_bubbling_witness :
    (∃ c', fsm_transition envA 7 5 6 cfgA 7 = CRes.ok c' ∧
      c'.current = cfgA.current ∧ c'.vars = cfgA.vars) ∧
    (∃ c', c'.current = cfgG.current ∧ c'.vars = cfgG.vars ∧
      bubbleLoop envG 7 5 6 cfgG (some cfgG.current) 7 =
        (match takeRow envG 7 5 ⟨1, 7, some 5, none, some 3⟩
            (guardStep envG ⟨1, 7, some 5, none, some 3⟩
              (addLog c' (Ev.attempt 1 7))) with
          | TRes.res _ c => CRes.ok c
          | TRes.crash => CRes.crash
          | TRes.hang => CRes.hang)) :=
  ⟨c6_event_bubbling.1 envA 7 5 6 7 cfgA 7 [2, 1] rfl (by decide) (by decide)
      (by intro r hr; cases hr),
   c6_event_bubbling.2 envG 7 5 6 7 cfgG 7 [2] [] 1 ⟨1, 7, some 5, none, some 3⟩
      rfl (by decide) (by decide) rfl
      (by intro g hg L; cases hg; rfl)⟩

end HFSM

namespace HFSM

theorem sameParents_refl (cfg : Config) : sameParents cfg cfg := fun _ => rfl

theorem sameParents_trans {a b c : Config} (h1 : sameParents a b) (h2 : sameParents b c) :
    sameParents a c := fun v => (h2 v).trans (h1 v)

theorem sameParents_of_varsEq {a b : Config} (h : b.vars = a.vars) : sameParents a b :=
  fun v => by rw [h]

theorem get_parent_of_sameParents (env : Env) {a b : Config} (h : sameParents a b)
    (s : Nat) : (get_state_variable env b s).parent = (get_state_variable env a s).parent :=
  h (resolveVar env s)

theorem DC_of_sameParents (env : Env) (d : Nat → Nat) {a b : Config}
    (hp : sameParents a b) (h : DC env d a) : DC env d b := by
  intro s
  refine ⟨?_, ?_⟩
  · intro hn
    exact (h s).1 ((get_parent_of_sameParents env hp s).symm.trans hn)
  · intro p hps
    exact (h s).2 p ((get_parent_of_sameParents env hp s).symm.trans hps)

theorem HI_of_varsEq (env : Env) (d : Nat → Nat) {a b : Config} (hv : b.vars = a.vars)
    (h : HI env d a) : HI env d b := by
  intro s x hh
  exact h s x (by rw [get_state_variable, hv] at hh; exact hh)

theorem DC_of_varsEq (env : Env) (d : Nat → Nat) {a b : Config} (hv : b.vars = a.vars)
    (h : DC env d a) : DC env d b :=
  DC_of_sameParents env d (sameParents_of_varsEq hv) h

theorem depth_eq_of_resolve_eq (env : Env) (d : Nat → Nat) {cfg : Config}
    (hdc : DC env d cfg) {a b : Nat} (h : resolveVar env a = resolveVar env b) :
    d a = d b := by
  have hpar : (get_state_variable env cfg a).parent = (get_state_variable env cfg b).parent := by
    unfold get_state_variable
    rw [h]
  cases hp : (get_state_variable env cfg b).parent with
  | none =>
    rw [(hdc a).1 (hpar.trans hp), (hdc b).1 hp]
  | some q =>
    rw [(hdc a).2 q (hpar.trans hp), (hdc b).2 q hp]

theorem HI_exit (env : Env) (d : Nat → Nat) {cfg : Config} (hdc : DC env d cfg)
    (hhi : HI env d cfg) (s : Nat) (c : Bool) :
    HI env d (exit_if_can_be env cfg s c) := by
  unfold exit_if_can_be
  cases hp : (get_state_variable env cfg s).parent with
  | none =>
    cases hE : (env.states s).hasExit <;> simp only [hE, if_true, if_false]
    · exact hhi
    · exact HI_of_varsEq env d rfl hhi
  | some p =>
    set cfg1 := if (env.states s).hasExit then addLog cfg (Ev.leave s c) else cfg with hc1
    have hv1 : cfg1.vars = cfg.vars := by
      rw [hc1]; cases (env.states s).hasExit <;> rfl
    intro y x hh
    unfold get_state_variable setHistory at hh
    dsimp only at hh
    by_cases hy : resolveVar env y = resolveVar env p
    · rw [if_pos hy] at hh
      dsimp only at hh
      injection hh with hx
      subst hx
      have h1 : d s = d p + 1 := (hdc s).2 p hp
      have h2 : d y = d p := depth_eq_of_resolve_eq env d hdc hy
      rw [h1, h2]
    · rw [if_neg hy] at hh
      exact hhi y x (by rw [get_state_variable, ← hv1]; exact hh)

theorem exit_vars_untouched (env : Env) (cfg : Config) (s : Nat) (c : Bool) (v : Nat)
    (hv : ∀ q, (get_state_variable env cfg s).parent = some q → resolveVar env q ≠ v) :
    ((exit_if_can_be env cfg s c).vars v) = cfg.vars v := by
  unfold exit_if_can_be
  cases hp : (get_state_variable env cfg s).parent with
  | none => cases hE : (env.states s).hasExit <;> simp [hE, addLog]
  | some p =>
    have hne : resolveVar env p ≠ v := hv p hp
    cases hE : (env.states s).hasExit <;>
      (simp [hE, addLog, setHistory]; intro h; exact absurd h.symm hne)

end HFSM

namespace HFSM

theorem dpos (env : Env) (d : Nat → Nat) {cfg : Config} (hdc : DC env d cfg) (s : Nat) :
    1 ≤ d s := by
  cases hp : (get_state_variable env cfg s).parent with
  | none => rw [(hdc s).1 hp]
  | some p => rw [(hdc s).2 p hp]; omega

theorem ancestors_of_depth (env : Env) (d : Nat → Nat) {cfg : Config}
    (hdc : DC env d cfg) :
    ∀ (n s : Nat), d s ≤ n → ∃ l, ancestors env cfg s n = some l ∧ l.length = d s := by
  intro n
  induction n with
  | zero =>
    intro s hs
    exact absurd (dpos env d hdc s) (by omega)
  | succ n ih =>
    intro s hs
    cases hp : (get_state_variable env cfg s).parent with
    | none =>
      refine ⟨[s], ?_, ?_⟩
      · simp only [ancestors, hp]
      · simp [(hdc s).1 hp]
    | some p =>
      have hds : d s = d p + 1 := (hdc s).2 p hp
      obtain ⟨lp, hlp, hlen⟩ := ih p (by omega)
      refine ⟨s :: lp, ?_, ?_⟩
      · simp only [ancestors, hp, hlp, Option.map_some']
      · simp [hlen, hds]

theorem ancestors_fuel_mono (env : Env) (cfg : Config) :
    ∀ (n : Nat) (s : Nat) (l : List Nat) (m : Nat),
      ancestors env cfg s n = some l → n ≤ m → ancestors env cfg s m = some l := by
  intro n
  induction n with
  | zero => intro s l m h; cases h
  | succ n ih =>
    intro s l m h hle
    cases m with
    | zero => omega
    | succ m =>
      simp only [ancestors] at h
      cases hp : (get_state_variable env cfg s).parent with
      | none =>
        rw [hp] at h
        simp only [ancestors, hp]
        exact h
      | some p =>
        simp only [hp] at h
        cases ha : ancestors env cfg p n with
        | none => rw [ha] at h; cases h
        | some lp =>
          rw [ha, Option.map_some'] at h
          simp only [ancestors, hp, ih p lp m ha (by omega), Option.map_some']
          exact h

theorem ancestors_chainProp (env : Env) (cfg : Config) :
    ∀ (n s : Nat) (l : List Nat), ancestors env cfg s n = some l →
      chainProp env cfg l := by
  intro n
  induction n with
  | zero => intro s l h; cases h
  | succ n ih =>
    intro s l h
    simp only [ancestors] at h
    cases hp : (get_state_variable env cfg s).parent with
    | none =>
      rw [hp] at h
      cases h
      exact hp
    | some p =>
      simp only [hp] at h
      cases ha : ancestors env cfg p n with
      | none => rw [ha] at h; cases h
      | some lp =>
        rw [ha, Option.map_some'] at h
        cases h
        have hcp := ih p lp ha
        obtain ⟨tl, htl⟩ := ancestors_shape env cfg n p lp ha
        subst htl
        exact ⟨hp, hcp⟩

theorem chainProp_of_sameParents (env : Env) {a b : Config} (hp : sameParents a b) :
    ∀ (l : List Nat), chainProp env a l → chainProp env b l := by
  intro l
  induction l with
  | nil => intro h; exact h
  | cons s rest ih =>
    intro h
    cases rest with
    | nil =>
      exact (get_parent_of_sameParents env hp s).trans h
    | cons p rest' =>
      exact ⟨(get_parent_of_sameParents env hp s).trans h.1, ih h.2⟩

theorem chainProp_mem_parent (env : Env) (cfg : Config) :
    ∀ (l : List Nat) (x : Nat), chainProp env cfg l → x ∈ l →
      (get_state_variable env cfg x).parent = none ∨
      ∃ y ∈ l, (get_state_variable env cfg x).parent = some y := by
  intro l
  induction l with
  | nil => intro x _ hx; cases hx
  | cons s rest ih =>
    intro x hcp hx
    cases rest with
    | nil =>
      have hxs : x = s := by
        cases hx with
        | head => rfl
        | tail _ h => cases h
      subst hxs
      exact Or.inl hcp
    | cons p rest' =>
      cases hx with
      | head =>
        exact Or.inr ⟨p, List.mem_cons_of_mem s (List.mem_cons_self p rest'), hcp.1⟩
      | tail _ hx' =>
        rcases ih x hcp.2 hx' with h | ⟨y, hy, hyp⟩
        · exact Or.inl h
        · exact Or.inr ⟨y, List.mem_cons_of_mem s hy, hyp⟩

theorem lockstep_none_eq : ∀ (a b : List Nat), lockstep a b = none → a = b := by
  intro a
  induction a with
  | nil =>
    intro b h
    cases b with
    | nil => rfl
    | cons d ds => cases h
  | cons s ss ih =>
    intro b h
    cases b with
    | nil => cases h
    | cons d ds =>
      simp only [lockstep] at h
      by_cases hsd : s = d
      · rw [if_pos hsd] at h
        rw [hsd, ih ds h]
      · rw [if_neg hsd] at h
        cases h

theorem lockstep_mem_src : ∀ (a b : List Nat) (x : Nat) (dt : Option Nat)
    (rest : List Nat), lockstep a b = some (some x, dt, rest) → x ∈ a := by
  intro a
  induction a with
  | nil =>
    intro b x dt rest h
    cases b with
    | nil => cases h
    | cons d ds => simp only [lockstep] at h; cases h
  | cons s ss ih =>
    intro b x dt rest h
    cases b with
    | nil =>
      simp only [lockstep] at h
      cases h
      exact List.mem_cons_self s ss
    | cons d ds =>
      simp only [lockstep] at h
      by_cases hsd : s = d
      · rw [if_pos hsd] at h
        exact List.mem_cons_of_mem s (ih ds x dt rest h)
      · rw [if_neg hsd] at h
        cases h
        exact List.mem_cons_self s ss

theorem lockstep_dest_none_sub : ∀ (a b : List Nat) (st : Option Nat) (rest : List Nat),
    lockstep a b = some (st, none, rest) → ∀ y ∈ b, y ∈ a := by
  intro a
  induction a with
  | nil =>
    intro b st rest h
    cases b with
    | nil => cases h
    | cons d ds => simp only [lockstep] at h; cases h
  | cons s ss ih =>
    intro b st rest h
    cases b with
    | nil => intro y hy; cases hy
    | cons d ds =>
      simp only [lockstep] at h
      by_cases hsd : s = d
      · rw [if_pos hsd] at h
        intro y hy
        cases hy with
        | head => rw [hsd]; exact List.mem_cons_self d ss
        | tail _ hy' => exact List.mem_cons_of_mem s (ih ds st rest h y hy')
      · rw [if_neg hsd] at h
        cases h

theorem lockstep_dest_suffix : ∀ (a b : List Nat) (st : Option Nat) (d0 : Nat)
    (rest : List Nat), lockstep a b = some (st, some d0, rest) →
      ∃ pre, b = pre ++ d0 :: rest := by
  intro a
  induction a with
  | nil =>
    intro b st d0 rest h
    cases b with
    | nil => cases h
    | cons d ds =>
      simp only [lockstep] at h
      cases h
      exact ⟨[], rfl⟩
  | cons s ss ih =>
    intro b st d0 rest h
    cases b with
    | nil => simp only [lockstep] at h; cases h
    | cons d ds =>
      simp only [lockstep] at h
      by_cases hsd : s = d
      · rw [if_pos hsd] at h
        obtain ⟨pre, hpre⟩ := ih ds st d0 rest h
        exact ⟨d :: pre, by rw [hpre]; rfl⟩
      · rw [if_neg hsd] at h
        cases h
        exact ⟨[], rfl⟩

theorem lockstep_prefix : ∀ (l : List Nat) (h : Nat),
    lockstep l (l ++ [h]) = some (none, some h, []) := by
  intro l
  induction l with
  | nil => intro h; rfl
  | cons s ss ih =>
    intro h
    simp only [List.cons_append, lockstep, if_pos rfl]
    exact ih h

theorem getLastD_append : ∀ (pre : List Nat) (d0 : Nat) (rest : List Nat) (a : Nat),
    (pre ++ d0 :: rest).getLastD a = rest.getLastD d0 := by
  intro pre
  induction pre with
  | nil => intro d0 rest a; exact List.getLastD_cons _ _ _
  | cons p pre' ih =>
    intro d0 rest a
    rw [List.cons_append, List.getLastD_cons]
    exact ih d0 rest p

end HFSM

namespace HFSM

theorem exitWalk_term (env : Env) (d : Nat → Nat) :
    ∀ (tl : List Nat) (wf : Nat) (cfg : Config) (anc : Option Nat) (s : Nat),
      chainProp env cfg (s :: tl) →
      (anc = none ∨ ∃ x ∈ s :: tl, anc = some x) →
      (s :: tl).length < wf →
      ∃ c', exitWalk env wf cfg (some s) anc = CRes.ok c' ∧
        sameParents cfg c' ∧
        c'.current = cfg.current ∧
        (∀ v, (∀ x ∈ s :: tl, ∀ q, (get_state_variable env cfg x).parent = some q →
          resolveVar env q ≠ v) → c'.vars v = cfg.vars v) ∧
        (DC env d cfg → HI env d cfg → HI env d c') := by
  intro tl
  induction tl with
  | nil =>
    intro wf cfg anc s hcp hanc hlen
    cases wf with
    | zero => exact absurd hlen (by simp)
    | succ w =>
      by_cases hsa : (some s : Option Nat) = anc
      · refine ⟨cfg, ?_, sameParents_refl cfg, rfl, fun v _ => rfl, fun _ h => h⟩
        simp only [exitWalk, if_pos hsa]
      · have hpn : (get_state_variable env cfg s).parent = none := hcp
        have hancn : anc = none := by
          rcases hanc with h | ⟨x, hx, hax⟩
          · exact h
          · exfalso
            have hxs : x = s := by
              cases hx with
              | head => rfl
              | tail _ h2 => cases h2
            exact hsa (hxs ▸ hax.symm)
        subst hancn
        cases w with
        | zero => simp at hlen
        | succ w' =>
          refine ⟨exit_if_can_be env cfg s
              (decide ((get_state_variable env cfg s).parent = none)), ?_, ?_, ?_, ?_, ?_⟩
          · simp only [exitWalk, if_neg hsa, hpn]
            simp
          · exact exit_if_sameParents env cfg s _
          · exact exit_if_current env cfg s _
          · intro v _
            exact exit_vars_untouched env cfg s _ v
              (fun q hq => by rw [hpn] at hq; cases hq)
          · intro hdc hhi
            exact HI_exit env d hdc hhi s _
  | cons p tl' ih =>
    intro wf cfg anc s hcp hanc hlen
    cases wf with
    | zero => exact absurd hlen (by simp)
    | succ w =>
      by_cases hsa : (some s : Option Nat) = anc
      · refine ⟨cfg, ?_, sameParents_refl cfg, rfl, fun v _ => rfl, fun _ h => h⟩
        simp only [exitWalk, if_pos hsa]
      · have hps : (get_state_variable env cfg s).parent = some p := hcp.1
        have hsp := exit_if_sameParents env cfg s (decide ((some p : Option Nat) = anc))
        obtain ⟨c', hw, hsp', hcur', hvp', hhi'⟩ := ih w
          (exit_if_can_be env cfg s (decide ((some p : Option Nat) = anc)))
          anc p
          (chainProp_of_sameParents env hsp (p :: tl') hcp.2)
          (by
            rcases hanc with h | ⟨x, hx, hax⟩
            · exact Or.inl h
            · refine Or.inr ⟨x, ?_, hax⟩
              cases hx with
              | head => exact absurd hax.symm hsa
              | tail _ h2 => exact h2)
          (by simpa using Nat.lt_of_succ_lt_succ hlen)
        refine ⟨c', ?_, sameParents_trans hsp hsp', hcur'.trans (exit_if_current env cfg s _),
          ?_, ?_⟩
        · simp only [exitWalk, if_neg hsa]
          rw [hps]
          exact hw
        · intro v hv
          have h1 : c'.vars v =
              (exit_if_can_be env cfg s (decide ((some p : Option Nat) = anc))).vars v := by
            refine hvp' v ?_
            intro x hx q hq hr
            refine hv x (List.mem_cons_of_mem s hx) q ?_ hr
            rw [← get_parent_of_sameParents env hsp x]
            exact hq
          have h2 : (exit_if_can_be env cfg s
              (decide ((some p : Option Nat) = anc))).vars v = cfg.vars v :=
            exit_vars_untouched env cfg s _ v
              (fun q hq => hv s (List.mem_cons_self s (p :: tl')) q hq)
          exact h1.trans h2
        · intro hdc hhi
          exact hhi' (DC_of_sameParents env d hsp hdc) (HI_exit env d hdc hhi s _)

end HFSM

namespace HFSM

theorem stackOf_of_le (l : List Nat) (h : l.length ≤ NEST_MAX) : stackOf l = l.reverse := by
  unfold stackOf
  rw [List.take_of_length_le h]

theorem change_no_hang (env : Env) (d : Nat → Nat) (wf : Nat) (hwf : 7 ≤ wf)
    (hb : ∀ s, d s ≤ 5) :
    ∀ (fuel : Nat) (cfg : Config) (t : Nat),
      DC env d cfg → HI env d cfg → 6 ≤ fuel + d t →
      fsm_change_state env wf fuel cfg t ≠ CRes.hang := by
  intro fuel
  induction fuel with
  | zero =>
    intro cfg t hdc hhi hf
    have h5 := hb t
    exact absurd hf (by omega)
  | succ n ih =>
    intro cfg t hdc hhi hf
    by_cases hc : cfg.current = t
    · simp only [fsm_change_state, if_pos hc]
      exact fun h => CRes.noConfusion h
    · obtain ⟨S, hS, hSlen⟩ := ancestors_of_depth env d hdc wf cfg.current
        (le_trans (hb cfg.current) (by omega))
      obtain ⟨D, hD, hDlen⟩ := ancestors_of_depth env d hdc wf t
        (le_trans (hb t) (by omega))
      have hSle : S.length ≤ NEST_MAX := by rw [hSlen]; exact hb cfg.current
      have hDle : D.length ≤ NEST_MAX := by rw [hDlen]; exact hb t
      have hSst : stackOf S = S.reverse := stackOf_of_le S hSle
      have hDst : stackOf D = D.reverse := stackOf_of_le D hDle
      obtain ⟨tlS, hSsh⟩ := ancestors_shape env cfg wf cfg.current S hS
      obtain ⟨tlD, hDsh⟩ := ancestors_shape env cfg wf t D hD
      simp only [fsm_change_state, if_neg hc, hS, hD]
      cases hL : lockstep (stackOf S) (stackOf D) with
      | none =>
        exfalso
        have hEq : stackOf S = stackOf D := lockstep_none_eq _ _ hL
        rw [hSst, hDst] at hEq
        have hSD : S = D := List.reverse_injective hEq
        apply hc
        rw [hSsh, hDsh] at hSD
        injection hSD
      | some trip =>
        obtain ⟨st, dt, rest⟩ := trip
        simp only [hL]
        cases dt with
        | none => exact fun h => CRes.noConfusion h
        | some d0 =>
          have hleaf : rest.getLastD d0 = t := by
            obtain ⟨pre, hpre⟩ := lockstep_dest_suffix _ _ st d0 rest hL
            rw [hDst, hDsh] at hpre
            have h2 : rest.getLastD d0 = ((t :: tlD).reverse).getLastD 0 := by
              rw [hpre, getLastD_append]
            rw [h2, List.reverse_cons]
            exact getLastD_append tlD.reverse t [] 0
          have hcp : chainProp env cfg S := ancestors_chainProp env cfg wf cfg.current S hS
          cases st with
          | none =>
            have hwalk : exitWalk env wf cfg (some cfg.current) (some cfg.current) =
                CRes.ok cfg := by
              cases wf with
              | zero => omega
              | succ w => simp [exitWalk]
            simp only [hwalk]
            cases hH : (get_state_variable env
                (entrySeq env { cfg with current := t } d0 rest)
                (rest.getLastD d0)).history with
            | none => exact fun h => CRes.noConfusion h
            | some hs =>
              have hv2 : (entrySeq env { cfg with current := t } d0 rest).vars = cfg.vars :=
                entrySeq_vars env rest _ d0
              have hdc2 : DC env d (entrySeq env { cfg with current := t } d0 rest) :=
                DC_of_varsEq env d hv2 hdc
              have hhi2 : HI env d (entrySeq env { cfg with current := t } d0 rest) :=
                HI_of_varsEq env d hv2 hhi
              rw [hleaf] at hH
              have hdh : d hs = d t + 1 := hhi2 t hs hH
              exact ih _ hs hdc2 hhi2 (by omega)
          | some x =>
            have hxm : x ∈ S := by
              have hmem := lockstep_mem_src _ _ x (some d0) rest hL
              rw [hSst] at hmem
              exact List.mem_reverse.mp hmem
            have hanccond := chainProp_mem_parent env cfg S x hcp hxm
            have hcp' : chainProp env cfg (cfg.current :: tlS) := hSsh ▸ hcp
            have hlen' : (cfg.current :: tlS).length < wf := by
              rw [← hSsh, hSlen]
              have := hb cfg.current
              omega
            obtain ⟨c1, hwalk, hsp1, hcur1, hvp1, hhi1⟩ :=
              exitWalk_term env d tlS wf cfg ((get_state_variable env cfg x).parent)
                cfg.current hcp'
                (by
                  rcases hanccond with h | ⟨y, hy, hyp⟩
                  · exact Or.inl h
                  · exact Or.inr ⟨y, hSsh ▸ hy, hyp⟩)
                hlen'
            simp only [hwalk]
            cases hH : (get_state_variable env
                (entrySeq env { c1 with current := t } d0 rest)
                (rest.getLastD d0)).history with
            | none => exact fun h => CRes.noConfusion h
            | some hs =>
              have hv2 : (entrySeq env { c1 with current := t } d0 rest).vars = c1.vars :=
                entrySeq_vars env rest _ d0
              have hdc1 : DC env d c1 := DC_of_sameParents env d hsp1 hdc
              have hhi1' : HI env d c1 := hhi1 hdc hhi
              have hdc2 : DC env d (entrySeq env { c1 with current := t } d0 rest) :=
                DC_of_varsEq env d hv2 hdc1
              have hhi2 : HI env d (entrySeq env { c1 with current := t } d0 rest) :=
                HI_of_varsEq env d hv2 hhi1'
              rw [hleaf] at hH
              have hdh : d hs = d t + 1 := hhi2 t hs hH
              exact ih _ hs hdc2 hhi2 (by omega)

end HFSM

namespace HFSM

/-- C9: for a machine whose parent relation is acyclic with nesting depth
at most `NEST_MAX = 5` (witnessed by a depth function compatible with the
parent links) and whose recorded histories are children of their owning
states, `fsm_change_state` never exhausts its fuel: its only self-recursion
is the history continuation, every recursive call targets a state exactly
one level deeper, and the recursion depth is bounded by the declared
hierarchy depth — fuel 5 for the history recursion and 7 for each pointer
walk always suffice. -/
theorem c9_change_state_terminates :
    ∀ (env : Env) (cfg : Config) (t : Nat) (d : Nat → Nat) (wf fuel : Nat),
      DC env d cfg →
      (∀ s, d s ≤ 5) →
      (∀ s h, (get_state_variable env cfg s).history = some h →
        (get_state_variable env cfg h).parent = some s) →
      7 ≤ wf → 5 ≤ fuel →
      fsm_change_state env wf fuel cfg t ≠ CRes.hang := by
  intro env cfg t d wf fuel hdc hb hhist hwf hfuel
  have hhi : HI env d cfg := by
    intro s h hh
    exact (hdc h).2 s (hhist s h hh)
  have h1 := dpos env d hdc t
  exact change_no_hang env d wf hwf hb fuel cfg t hdc hhi (by omega)

theorem depthA_DC : DC envA depthA cfgA := by
  intro s
  constructor
  · intro h
    by_cases h2 : s = 2
    · subst h2; exact absurd h (by decide)
    · simp [depthA, h2]
  · intro p hp
    by_cases h2 : s = 2
    · subst h2
      have he : (get_state_variable envA cfgA 2).parent = some 1 := by decide
      rw [he] at hp
      injection hp with hp1
      subst hp1
      decide
    · exfalso
      by_cases h1 : s = 1
      · subst h1
        rw [show (get_state_variable envA cfgA 1).parent = none from by decide] at hp
        cases hp
      · have hn : (get_state_variable envA cfgA s).parent = none := by
          simp [get_state_variable, resolveVar, envA, cfgA, statesA, varsA, h1, h2, vNone, nullVar]
        rw [hn] at hp
        cases hp

theorem histA_none (s : Nat) : (get_state_variable envA cfgA s).history = none := by
  by_cases h1 : s = 1
  · subst h1; decide
  · by_cases h2 : s = 2
    · subst h2; decide
    · simp [get_state_variable, resolveVar, envA, cfgA, statesA, varsA, h1, h2, vNone, nullVar]

/-- Witness for C9 at the two-state fixture: a state change to the parent
state does not hang (it crashes, per C1, but the recursion terminates). -/
theorem c9_change_state_terminates_witness :
    fsm_change_state envA 7 5 cfgA 1 ≠ CRes.hang :=
  c9_change_state_terminates envA cfgA 1 depthA 7 5 depthA_DC
    (by intro s; by_cases h2 : s = 2 <;> simp [depthA, h2])
    (by
      intro s h hh
      rw [histA_none s] at hh
      cases hh)
    (by omega) (by omega)

end HFSM

namespace HFSM

theorem histChain_preserved (env : Env) {a b : Config} :
    ∀ (D : List Nat) (t : Nat),
      (∀ y ∈ t :: D, b.vars (resolveVar env y) = a.vars (resolveVar env y)) →
      histChain env a t D → histChain env b t D := by
  intro D
  induction D with
  | nil =>
    intro t hv h
    show (get_state_variable env b t).history = none
    rw [get_state_variable, hv t (List.mem_cons_self t [])]
    exact h
  | cons h1 D' ih =>
    intro t hv h
    refine ⟨?_, ?_, ?_⟩
    · rw [get_state_variable, hv t (List.mem_cons_self t (h1 :: D'))]
      exact h.1
    · rw [get_state_variable, hv h1 (List.mem_cons_of_mem t (List.mem_cons_self h1 D'))]
      exact h.2.1
    · exact ih h1 (fun y hy => hv y (List.mem_cons_of_mem t hy)) h.2.2

theorem change_step_pure (env : Env) (d : Nat → Nat) (wf : Nat) (hwf : 7 ≤ wf)
    (hb : ∀ s, d s ≤ 5) (cf' : Nat) (cfg : Config) (h1 : Nat)
    (hdc : DC env d cfg)
    (hpar : (get_state_variable env cfg h1).parent = some cfg.current) :
    fsm_change_state env wf (cf' + 1) cfg h1 =
      (match (get_state_variable env
          (entry_if_can_be env { cfg with current := h1 } h1 true) h1).history with
        | none => CRes.ok (entry_if_can_be env { cfg with current := h1 } h1 true)
        | some h => fsm_change_state env wf cf'
            (entry_if_can_be env { cfg with current := h1 } h1 true) h) := by
  have hne : ¬(cfg.current = h1) := by
    intro he
    have hd1 : d h1 = d cfg.current + 1 := (hdc h1).2 cfg.current hpar
    rw [he] at hd1
    omega
  cases wf with
  | zero => omega
  | succ w =>
    obtain ⟨S, hS, hSlen⟩ := ancestors_of_depth env d hdc w cfg.current
      (le_trans (hb cfg.current) (by omega))
    have hS' : ancestors env cfg cfg.current (w + 1) = some S :=
      ancestors_fuel_mono env cfg w cfg.current S (w + 1) hS (by omega)
    have hD' : ancestors env cfg h1 (w + 1) = some (h1 :: S) := by
      simp only [ancestors, hpar, hS, Option.map_some']
    have hd1 : d h1 = d cfg.current + 1 := (hdc h1).2 cfg.current hpar
    have hbh := hb h1
    have hSst : stackOf S = S.reverse := stackOf_of_le S (by rw [hSlen]; exact hb _)
    have hDst : stackOf (h1 :: S) = S.reverse ++ [h1] := by
      rw [stackOf_of_le (h1 :: S) (by simp [hSlen, NEST_MAX]; omega)]
      simp
    have hwalk : exitWalk env (w + 1) cfg (some cfg.current) (some cfg.current) =
        CRes.ok cfg := by
      simp [exitWalk]
    simp only [fsm_change_state, if_neg hne, hS', hD', hSst, hDst, lockstep_prefix, hwalk,
      entrySeq]
    rfl

theorem descend_pure (env : Env) (d : Nat → Nat) (wf : Nat) (hwf : 7 ≤ wf)
    (hb : ∀ s, d s ≤ 5) :
    ∀ (D : List Nat) (cf : Nat) (cfg : Config) (h1 : Nat),
      DC env d cfg →
      (get_state_variable env cfg h1).parent = some cfg.current →
      histChain env cfg h1 D →
      D.length < cf →
      ∃ c', fsm_change_state env wf cf cfg h1 = CRes.ok c' ∧
        c'.current = D.getLastD h1 ∧ c'.vars = cfg.vars := by
  intro D
  induction D with
  | nil =>
    intro cf cfg h1 hdc hpar hhc hcf
    cases cf with
    | zero => exact absurd hcf (by simp)
    | succ cf' =>
      rw [change_step_pure env d wf hwf hb cf' cfg h1 hdc hpar]
      have hv : (entry_if_can_be env { cfg with current := h1 } h1 true).vars = cfg.vars :=
        entry_if_vars env _ h1 true
      have hh : (get_state_variable env
          (entry_if_can_be env { cfg with current := h1 } h1 true) h1).history = none := by
        rw [get_state_variable, hv]
        exact hhc
      rw [hh]
      refine ⟨_, rfl, ?_, hv⟩
      exact (entry_if_current env _ h1 true).trans rfl
  | cons h2 D' ih =>
    intro cf cfg h1 hdc hpar hhc hcf
    cases cf with
    | zero => exact absurd hcf (by simp)
    | succ cf' =>
      rw [change_step_pure env d wf hwf hb cf' cfg h1 hdc hpar]
      have hv : (entry_if_can_be env { cfg with current := h1 } h1 true).vars = cfg.vars :=
        entry_if_vars env _ h1 true
      have hh : (get_state_variable env
          (entry_if_can_be env { cfg with current := h1 } h1 true) h1).history = some h2 := by
        rw [get_state_variable, hv]
        exact hhc.1
      rw [hh]
      have hcur : (entry_if_can_be env { cfg with current := h1 } h1 true).current = h1 :=
        (entry_if_current env _ h1 true).trans rfl
      obtain ⟨c', hch, hc1, hc2⟩ := ih cf'
        (entry_if_can_be env { cfg with current := h1 } h1 true) h2
        (DC_of_varsEq env d hv hdc)
        (by
          rw [get_state_variable, hv, hcur]
          exact hhc.2.1)
        (histChain_preserved env D' h2 (fun y _ => by rw [hv]) hhc.2.2)
        (by simpa using Nat.lt_of_succ_lt_succ hcf)
      refine ⟨c', hch, ?_, hc2.trans hv⟩
      rw [hc1, List.getLastD_cons]

end HFSM

namespace HFSM

theorem c4_tail (env : Env) (d : Nat → Nat) (wf : Nat) (hwf : 7 ≤ wf)
    (hb : ∀ s, d s ≤ 5) (cf' : Nat) (cfg c1 : Config) (t d0 : Nat) (D rest : List Nat)
    (hdc : DC env d cfg)
    (hsp1 : sameParents cfg c1)
    (hpres : ∀ y ∈ t :: D, c1.vars (resolveVar env y) = cfg.vars (resolveVar env y))
    (hhc : histChain env cfg t D)
    (hleaf : rest.getLastD d0 = t)
    (hcf : D.length < cf' + 1) :
    ∃ c', (match (get_state_variable env (entrySeq env { c1 with current := t } d0 rest)
          (rest.getLastD d0)).history with
        | none => CRes.ok (entrySeq env { c1 with current := t } d0 rest)
        | some h => fsm_change_state env wf cf'
            (entrySeq env { c1 with current := t } d0 rest) h) = CRes.ok c' ∧
      c'.current = D.getLastD t := by
  have hv2 : (entrySeq env { c1 with current := t } d0 rest).vars = c1.vars :=
    entrySeq_vars env rest _ d0
  have hcur2 : (entrySeq env { c1 with current := t } d0 rest).current = t :=
    (entrySeq_current env rest _ d0).trans rfl
  have hpres2 : ∀ y ∈ t :: D,
      (entrySeq env { c1 with current := t } d0 rest).vars (resolveVar env y) =
        cfg.vars (resolveVar env y) :=
    fun y hy => (congrFun hv2 _).trans (hpres y hy)
  have hhc2 : histChain env (entrySeq env { c1 with current := t } d0 rest) t D :=
    histChain_preserved env D t hpres2 hhc
  rw [hleaf]
  cases D with
  | nil =>
    have hh : (get_state_variable env (entrySeq env { c1 with current := t } d0 rest)
        t).history = none := hhc2
    rw [hh]
    exact ⟨_, rfl, hcur2⟩
  | cons h1 D' =>
    have hh : (get_state_variable env (entrySeq env { c1 with current := t } d0 rest)
        t).history = some h1 := hhc2.1
    rw [hh]
    have hdc2 : DC env d (entrySeq env { c1 with current := t } d0 rest) :=
      DC_of_varsEq env d hv2 (DC_of_sameParents env d hsp1 hdc)
    have hp1 : (get_state_variable env (entrySeq env { c1 with current := t } d0 rest)
        h1).parent = some (entrySeq env { c1 with current := t } d0 rest).current := by
      have he : (get_state_variable env (entrySeq env { c1 with current := t } d0 rest)
          h1).parent = (get_state_variable env cfg h1).parent := by
        unfold get_state_variable
        rw [hv2]
        exact hsp1 (resolveVar env h1)
      rw [he, hhc.2.1, hcur2]
    obtain ⟨c', hch, hc1, _⟩ := descend_pure env d wf hwf hb D' cf'
      (entrySeq env { c1 with current := t } d0 rest) h1 hdc2 hp1 hhc2.2.2
      (by simpa using Nat.lt_of_succ_lt_succ hcf)
    refine ⟨c', hch, ?_⟩
    rw [hc1, List.getLastD_cons]

end HFSM

namespace HFSM

/-- C4: a relation row flagged `is_default` seeds the parent's history with
the child at construction; and a state change into a composite state `t`
whose recorded histories descend `t → h1 → … → D` (each a child of the
previous, the last recording none) ends with the machine's current leaf at
the end of that chain, transitively through arbitrarily nested composites:
after the entry cascade reaches `t` the algorithm recurses with the
recorded history substate as the new target.  The source branch must not
share variables with the descent states (sharing can clobber the recorded
history, see the shared-variable hazard), which also excludes the
crashing ancestor-target case. -/
theorem c4_history_descent :
    (∀ (env : Env) (s p : Nat) (cfg c' : Config),
      applyRels env [⟨s, some p, true⟩] cfg = some c' →
      (get_state_variable env c' p).history = some s) ∧
    (∀ (env : Env) (d : Nat → Nat) (wf cf : Nat) (cfg : Config) (t : Nat)
      (D S : List Nat),
      DC env d cfg → (∀ s, d s ≤ 5) → 7 ≤ wf →
      histChain env cfg t D →
      ancestors env cfg cfg.current wf = some S →
      (∀ x ∈ S, ∀ y ∈ t :: D, resolveVar env x ≠ resolveVar env y) →
      D.length < cf →
      ∃ c', fsm_change_state env wf cf cfg t = CRes.ok c' ∧
        c'.current = D.getLastD t) := by
  constructor
  · intro env s p cfg c' h
    simp only [applyRels] at h
    cases h
    simp [get_state_variable, setHistory]
  · intro env d wf cf cfg t D S hdc hb hwf hhc hS hdisj hcf
    obtain ⟨tlS, hSsh⟩ := ancestors_shape env cfg wf cfg.current S hS
    have hcurS : cfg.current ∈ S := by
      rw [hSsh]; exact List.mem_cons_self _ _
    have htD : t ∈ t :: D := List.mem_cons_self t D
    have hc : ¬(cfg.current = t) := by
      intro he
      exact hdisj cfg.current hcurS t htD (by rw [he])
    obtain ⟨S₀, hS₀, hS₀len⟩ := ancestors_of_depth env d hdc wf cfg.current
      (le_trans (hb _) (by omega))
    have hSS : S = S₀ := by
      have h2 := hS₀.symm.trans hS
      injection h2 with h3
      exact h3.symm
    have hSlen : S.length = d cfg.current := by rw [hSS]; exact hS₀len
    obtain ⟨D0, hD0, hD0len⟩ := ancestors_of_depth env d hdc wf t
      (le_trans (hb _) (by omega))
    obtain ⟨tlD, hD0sh⟩ := ancestors_shape env cfg wf t D0 hD0
    have hSst : stackOf S = S.reverse := stackOf_of_le S (by rw [hSlen]; exact hb _)
    have hDst : stackOf D0 = D0.reverse := stackOf_of_le D0 (by rw [hD0len]; exact hb _)
    have hcp : chainProp env cfg S := ancestors_chainProp env cfg wf cfg.current S hS
    have htS : t ∉ S := fun ht => hdisj t ht t htD rfl
    cases cf with
    | zero => exact absurd hcf (by omega)
    | succ cf' =>
      simp only [fsm_change_state, if_neg hc, hS, hD0]
      cases hL : lockstep (stackOf S) (stackOf D0) with
      | none =>
        exfalso
        have hEq := lockstep_none_eq _ _ hL
        rw [hSst, hDst] at hEq
        have hSD : S = D0 := List.reverse_injective hEq
        apply htS
        rw [hSD, hD0sh]
        exact List.mem_cons_self _ _
      | some trip =>
        obtain ⟨st, dt, rest⟩ := trip
        simp only [hL]
        cases dt with
        | none =>
          exfalso
          have hsub := lockstep_dest_none_sub _ _ st rest hL
          apply htS
          have ht0 : t ∈ stackOf D0 := by
            rw [hDst]
            exact List.mem_reverse.mpr (hD0sh ▸ List.mem_cons_self t tlD)
          have ht1 := hsub t ht0
          rw [hSst] at ht1
          exact List.mem_reverse.mp ht1
        | some d0 =>
          have hleaf : rest.getLastD d0 = t := by
            obtain ⟨pre, hpre⟩ := lockstep_dest_suffix _ _ st d0 rest hL
            rw [hDst, hD0sh] at hpre
            have h2 : rest.getLastD d0 = ((t :: tlD).reverse).getLastD 0 := by
              rw [hpre, getLastD_append]
            rw [h2, List.reverse_cons]
            exact getLastD_append tlD.reverse t [] 0
          cases st with
          | none =>
            have hwalk : exitWalk env wf cfg (some cfg.current) (some cfg.current) =
                CRes.ok cfg := by
              cases wf with
              | zero => omega
              | succ w => simp [exitWalk]
            simp only [hwalk]
            exact c4_tail env d wf hwf hb cf' cfg cfg t d0 D rest hdc
              (sameParents_refl cfg) (fun y _ => rfl) hhc hleaf hcf
          | some x =>
            have hxm : x ∈ S := by
              have hmem := lockstep_mem_src _ _ x (some d0) rest hL
              rw [hSst] at hmem
              exact List.mem_reverse.mp hmem
            have hanccond := chainProp_mem_parent env cfg S x hcp hxm
            have hcp' : chainProp env cfg (cfg.current :: tlS) := hSsh ▸ hcp
            have hlen' : (cfg.current :: tlS).length < wf := by
              rw [← hSsh, hSlen]
              have := hb cfg.current
              omega
            obtain ⟨c1, hwalk, hsp1, hcur1, hvp1, hhi1⟩ :=
              exitWalk_term env d tlS wf cfg ((get_state_variable env cfg x).parent)
                cfg.current hcp'
                (by
                  rcases hanccond with h | ⟨y, hy, hyp⟩
                  · exact Or.inl h
                  · exact Or.inr ⟨y, hSsh ▸ hy, hyp⟩)
                hlen'
            simp only [hwalk]
            have hpres : ∀ y ∈ t :: D,
                c1.vars (resolveVar env y) = cfg.vars (resolveVar env y) := by
              intro y hy
              apply hvp1 (resolveVar env y)
              intro x' hx' q hq
              have hx'S : x' ∈ S := by rw [hSsh]; exact hx'
              rcases chainProp_mem_parent env cfg S x' hcp hx'S with hnone | ⟨y', hy', hyp'⟩
              · rw [hnone] at hq; cases hq
              · rw [hyp'] at hq
                injection hq with hq'
                subst hq'
                exact hdisj y' hy' y hy
            exact c4_tail env d wf hwf hb cf' cfg c1 t d0 D rest hdc hsp1 hpres hhc
              hleaf hcf

end HFSM

namespace HFSM

theorem depthE_DC : DC envE depthE cfgE := by
  intro s
  constructor
  · intro h
    by_cases h2 : s = 2
    · subst h2; exact absurd h (by decide)
    · simp [depthE, h2]
  · intro p hp
    by_cases h2 : s = 2
    · subst h2
      have he : (get_state_variable envE cfgE 2).parent = some 1 := by decide
      rw [he] at hp
      injection hp with hp1
      subst hp1
      decide
    · exfalso
      by_cases h1 : s = 1
      · subst h1
        rw [show (get_state_variable envE cfgE 1).parent = none from by decide] at hp
        cases hp
      · by_cases h3 : s = 3
        · subst h3
          rw [show (get_state_variable envE cfgE 3).parent = none from by decide] at hp
          cases hp
        · have hn : (get_state_variable envE cfgE s).parent = none := by
            simp [get_state_variable, resolveVar, envE, cfgE, statesE, varsE, h1, h2, h3,
              vNone, nullVar]
          rw [hn] at hp
          cases hp

/-- Witness for C4 at the history fixture: switching from the unrelated
root 3 into composite 1, whose variable records history 2, lands on leaf
2. -/
theorem c4_history_descent_witness :
    (fsm_change_state envE 7 5 cfgE 1).currentOf = some 2 := by
  have h := c4_history_descent.2 envE depthE 7 5 cfgE 1 [2] [3]
    depthE_DC
    (by intro s; by_cases h2 : s = 2 <;> simp [depthE, h2])
    (by omega)
    (by exact ⟨by decide, by decide, show (get_state_variable envE cfgE 2).history = none by decide⟩)
    (by decide)
    (by decide)
    (by decide)
  obtain ⟨c', hok, hcur⟩ := h
  rw [hok]
  simp only [CRes.currentOf]
  rw [hcur]
  rfl

end HFSM
